import Mathlib

/-!
# Verification of the mudstuck template/scripting core

A shallow embedding of the mudstuck repository's scanner, recursive-descent
parser, AST evaluator and the read-only world/entity data model they query
(`src/scanner.rs`, `src/template.rs`, `src/types.rs`, `src/lib.rs`), together
with theorems settling the behavioural claims about them.

Modelling conventions:
* Rust `Uuid` identifiers are modelled as `Nat` (only identity matters to the
  evaluator).
* `BTreeMap<Uuid, usize>` is modelled as an association list with
  `List.lookup` (keys are unique in every world the code constructs).
* The recursive parser and evaluator are embedded with an explicit fuel
  parameter; `Res.timeout` marks fuel exhaustion.  Adequacy theorems below
  show that the fuel used by the top-level entry points `parse` and
  `World.eval` is always sufficient, so the embedding is total exactly where
  the Rust code terminates.
* A Rust panic (`Option::unwrap` on `None`) is modelled by the explicit
  result `Res.panicked` rather than by partiality.
-/

namespace Mudstuck

/-- `type InternalName = Uuid` (types.rs), with `Uuid` modelled as `Nat`. -/
abbrev InternalName := Nat

/-- `type Name = Vec<String>` (types.rs). -/
abbrev Name := List String

/-- `struct Connection` (types.rs). -/
structure Connection where
  endpoints : InternalName × InternalName
deriving DecidableEq

/-- `struct Room` (types.rs). -/
structure Room where
  entities : List InternalName
deriving DecidableEq

/-- `struct Character` (types.rs). -/
structure Character where
  inventory : List InternalName
deriving DecidableEq

/-- `enum Attribute` (types.rs). -/
inductive Attribute where
  | Lockable : Bool → Attribute
  | Closable : Bool → Attribute
  | Doorlike : Connection → Attribute
  | Roomlike : Room → Attribute
  | Characterlike : Character → Attribute
deriving DecidableEq

/-- `struct Entity` (types.rs). -/
structure Entity where
  id : InternalName
  name : Name
  «alias» : Option String
  short_description : String
  long_description : String
  attributes : List Attribute
deriving DecidableEq

/-- `struct World` (types.rs).  `entity_map : BTreeMap<InternalName, usize>`
is an association list queried with `List.lookup`. -/
structure World where
  name : String
  entities : List Entity
  entity_map : List (InternalName × Nat)
  start_location : InternalName

/-- `enum Ast` (template.rs). -/
inductive Ast where
  | Empty : Ast
  | Seq : Ast → Ast → Ast
  | Chr : Char → Ast
  | Str : String → Ast
  | Id : String → Ast
  | Call : Ast → List Ast → Ast

/-- Result of a modelled computation.  `ok`/`err` mirror Rust's
`Result<_, String>`; `panicked` models a Rust panic (`unwrap` on `None`);
`timeout` is the fuel-exhaustion marker of the embedding and never occurs
for the fuel supplied by the top-level entry points (proved below). -/
inductive Res (α : Type) where
  | timeout : Res α
  | panicked : Res α
  | err : String → Res α
  | ok : α → Res α

/-! ## Scanner (scanner.rs) -/

/-- `struct Scanner` (scanner.rs); `Vec<char>` becomes `List Char`. -/
structure Scanner where
  chars : List Char
  pos : Nat
  current : Option Char

/-- `Scanner::new` (scanner.rs). -/
def Scanner.new (txt : String) : Scanner :=
  { chars := txt.data, pos := 1, current := txt.data.get? 0 }

/-- `Scanner::next` (scanner.rs). -/
def Scanner.next (s : Scanner) : Scanner :=
  if s.pos < s.chars.length then
    { s with current := s.chars.get? s.pos, pos := s.pos + 1 }
  else
    { s with current := none }

/-- `skip_ws` (scanner.rs), with fuel. -/
def skip_wsF : Nat → Scanner → Option Scanner
  | 0, _ => none
  | n + 1, s =>
    match s.current with
    | none => some s
    | some c =>
      if c = ' ' ∨ c = '\r' ∨ c = '\n' ∨ c = '\t' then skip_wsF n s.next
      else some s

/-! ## Parser (template.rs) -/

/-- The first-character guard of `parse_ident` (template.rs):
`(c >= 'a' && c <= 'z') || (c >= 'A' && c <= 'Z') || c == '_'`. -/
def is_ident_start (c : Char) : Bool :=
  (decide ('a' ≤ c) && decide (c ≤ 'z')) ||
  (decide ('A' ≤ c) && decide (c ≤ 'Z')) || c == '_'

/-- The continuation guard of `parse_ident`'s loop (template.rs), which also
admits `_`, `.` and digits. -/
def is_ident_cont (c : Char) : Bool :=
  (decide ('a' ≤ c) && decide (c ≤ 'z')) ||
  (decide ('A' ≤ c) && decide (c ≤ 'Z')) ||
  c == '_' || c == '.' || (decide ('0' ≤ c) && decide (c ≤ '9'))

/-- The `loop` inside `parse_ident` (template.rs), with fuel: keep consuming
identifier-continuation characters, then return `Ast::Id` of the
accumulated text. -/
def ident_loopF : Nat → String → Scanner → Res (Ast × Scanner)
  | 0, _, _ => .timeout
  | n + 1, ret, s =>
    match s.current with
    | none => .ok (.Id ret, s)
    | some c =>
      if is_ident_cont c then ident_loopF n (ret.push c) s.next
      else .ok (.Id ret, s)

/-- `parse_ident` (template.rs), with fuel. -/
def parse_identF : Nat → Scanner → Res (Ast × Scanner)
  | 0, _ => .timeout
  | n + 1, s =>
    match s.current with
    | none => .err "identifier expected"
    | some c =>
      if is_ident_start c then ident_loopF n (String.singleton c) s.next
      else .err "identifier expected"

/-- `parse_string` (template.rs), with fuel; `res` accumulates the literal
body (the opening quote has already been consumed by `parse_expr`). -/
def parse_stringF : Nat → Char → String → Scanner → Res (Ast × Scanner)
  | 0, _, _, _ => .timeout
  | n + 1, quote, res, s =>
    match s.current with
    | none => .err "unexpected end of string in string literal"
    | some c =>
      if c = quote then .ok (.Str res, s.next)
      else parse_stringF n quote (res.push c) s.next

mutual

/-- `parse_expr` (template.rs), with fuel. -/
def parse_exprF : Nat → Scanner → Res (Ast × Scanner)
  | 0, _ => .timeout
  | n + 1, s =>
    match skip_wsF n s with
    | none => .timeout
    | some s1 =>
      match s1.current with
      | none => .err "unexpected end of string in expression"
      | some c =>
        if c = '(' then parse_callF n s1.next
        else if c = '\'' ∨ c = '"' then parse_stringF n c "" s1.next
        else if is_ident_start c then parse_identF n s1
        else .err ("unexpected character in expression: " ++ String.singleton c)

/-- `parse_call` (template.rs), with fuel: whitespace, the callee
identifier, whitespace, then the argument loop. -/
def parse_callF : Nat → Scanner → Res (Ast × Scanner)
  | 0, _ => .timeout
  | n + 1, s =>
    match skip_wsF n s with
    | none => .timeout
    | some s1 =>
      match parse_identF n s1 with
      | .ok (id, s2) =>
        match skip_wsF n s2 with
        | none => .timeout
        | some s3 => call_argsF n id [] s3
      | .err e => .err e
      | .timeout => .timeout
      | .panicked => .panicked

/-- The argument `loop` inside `parse_call` (template.rs), with fuel:
collect `parse_expr` results until the closing `)`. -/
def call_argsF : Nat → Ast → List Ast → Scanner → Res (Ast × Scanner)
  | 0, _, _, _ => .timeout
  | n + 1, id, args, s =>
    match s.current with
    | none => .err "unexpected end of string in call expression"
    | some c =>
      if c = ')' then .ok (.Call id args, s.next)
      else
        match parse_exprF n s with
        | .ok (a, s1) => call_argsF n id (args ++ [a]) s1
        | .err e => .err e
        | .timeout => .timeout
        | .panicked => .panicked

end

/-- The inner literal-run `loop` of `parse` (template.rs), with fuel:
accumulate verbatim characters until `#` or end of input. -/
def lit_runF : Nat → String → Scanner → Option (String × Scanner)
  | 0, _, _ => none
  | n + 1, acc, s =>
    match s.current with
    | none => some (acc, s)
    | some c =>
      if c = '#' then some (acc, s)
      else lit_runF n (acc.push c) s.next

/-- The outer `loop` of `parse` (template.rs), with fuel: `ret` is the
left-nested `Seq` accumulator. -/
def parse_loopF : Nat → Ast → Scanner → Res Ast
  | 0, _, _ => .timeout
  | n + 1, ret, s =>
    match s.current with
    | none => .ok ret
    | some c =>
      if c = '#' then
        match parse_exprF n s.next with
        | .ok (a, s1) => parse_loopF n (.Seq ret a) s1
        | .err e => .err e
        | .timeout => .timeout
        | .panicked => .panicked
      else
        match lit_runF n (String.singleton c) s.next with
        | none => .timeout
        | some (acc, s1) => parse_loopF n (.Seq ret (.Str acc)) s1

/-- `parse` (template.rs).  The fuel `2 * txt.length + 3` is sufficient
(proved below): `parse` never returns `Res.timeout`. -/
def parse (txt : String) : Res Ast :=
  parse_loopF (2 * txt.length + 3) .Empty (Scanner.new txt)

/-! ## Evaluator (lib.rs) -/

/-- `enum Function` (lib.rs). -/
inductive Function where
  | If : Function
  | Closed : Function
  | Locked : Function
deriving DecidableEq

/-- `enum Value` (lib.rs).  The `&'static str` display name becomes
`String`; `usize` arities become `Nat`. -/
inductive Value where
  | Fun : Function → String → Bool → Nat → Nat → Value
  | Reference : InternalName → Value
  | Str : String → Value
  | Bool : Bool → Value
  | Expr : Ast → Value

/-- `World::entity` (lib.rs): `entity_map.get(name).and_then(|idx|
entities.get(idx))`. -/
def World.entity (w : World) (name : InternalName) : Option Entity :=
  (List.lookup name w.entity_map).bind fun idx => w.entities.get? idx

/-- `World::get_by_name` (lib.rs): a linear scan that overwrites the result
on every match, so the *last* matching entity wins. -/
def World.get_by_name (w : World) (name : Name) : Option InternalName :=
  w.entities.foldl (fun res e => if e.name = name then some e.id else res) none

/-- Model of Rust's `str::split('.')` over the character list: splits into
the (possibly empty) words between `.` separators; the empty string yields
`[""]`. -/
def splitOnDot : List Char → List String
  | [] => [""]
  | c :: rest =>
    if c = '.' then "" :: splitOnDot rest
    else
      match splitOnDot rest with
      | [] => [String.singleton c]
      | word :: ws => (⟨c :: word.data⟩ : String) :: ws

/-- `World::from_script_name` (lib.rs): split on `.`. -/
def World.from_script_name (_w : World) (s : String) : Name :=
  splitOnDot s.data

mutual

/-- Size measure of an AST node, used as evaluator fuel. -/
def astSize : Ast → Nat
  | .Empty => 1
  | .Seq l r => astSize l + astSize r + 1
  | .Chr _ => 1
  | .Str _ => 1
  | .Id _ => 1
  | .Call f args => astSize f + astListSize args + 1

/-- Size measure of an AST list. -/
def astListSize : List Ast → Nat
  | [] => 0
  | a :: rest => astSize a + astListSize rest

end

/-- The body of `World::eval_list` (lib.rs), parameterized by the
recursive evaluation function so that the fueled evaluator below is
structurally recursive on its fuel: evaluate left-to-right, stopping at the
first failure. -/
def eval_listStep (recur : Ast → Res Value) : List Ast → Res (List Value)
  | [] => .ok []
  | a :: rest =>
    match recur a with
    | .ok ar =>
      match eval_listStep recur rest with
      | .ok res => .ok (ar :: res)
      | .err e => .err e
      | .timeout => .timeout
      | .panicked => .panicked
    | .err e => .err e
    | .timeout => .timeout
    | .panicked => .panicked

/-- The body of `World::apply` (lib.rs), parameterized by the recursive
evaluation function.  `args.get(i).unwrap()` on a missing slot and
`self.entity(name).unwrap()` on an unknown reference become `Res.panicked`. -/
def applyStep (w : World) (recur : Ast → Res Value) (f : Value)
    (args : List Value) : Res Value :=
  match f with
  | .Fun fun_id _ _ _ _ =>
    match fun_id with
    | .If =>
      match args.get? 0 with
      | none => .panicked
      | some v0 =>
        match v0 with
        | .Expr cond =>
          match recur cond with
          | .ok cval =>
            match cval with
            | .Bool b =>
              match (if b then args.get? 1 else args.get? 2) with
              | none => .panicked
              | some e =>
                match e with
                | .Expr ee => recur ee
                | _ => .err "internal error, if expression already evaluated"
            | _ => .err "if expects boolean expression as first argument"
          | .err e => .err e
          | .timeout => .timeout
          | .panicked => .panicked
        | _ => .err "internal error, if condition already evaluated"
    | .Closed =>
      match args.get? 0 with
      | some (.Reference name) =>
        match w.entity name with
        | none => .panicked
        | some ent =>
          match ent.attributes.find? (fun a =>
              match a with | .Closable _ => true | _ => false) with
          | some (.Closable closed) => .ok (.Bool closed)
          | _ => .ok (.Bool false)
      | _ => .err "function closed requires a name of an entity"
    | .Locked =>
      match args.get? 0 with
      | some (.Reference name) =>
        match w.entity name with
        | none => .panicked
        | some ent =>
          match ent.attributes.find? (fun a =>
              match a with | .Lockable _ => true | _ => false) with
          | some (.Lockable closed) => .ok (.Bool closed)
          | _ => .ok (.Bool false)
      | _ => .err "function locked requires a name of an entity"
  | _ => .err "non-function in function position"

/-- `World::eval` (lib.rs), with fuel (structurally recursive on the fuel,
so that concrete evaluations reduce in the kernel). -/
def World.evalF (w : World) : Nat → Ast → Res Value
  | 0, _ => .timeout
  | n + 1, ast =>
    match ast with
    | .Empty => .ok (.Str "")
    | .Chr c => .ok (.Str (String.singleton c))
    | .Str s => .ok (.Str s)
    | .Id s =>
      if s = "if" then .ok (.Fun .If "if" true 3 3)
      else if s = "closed" then .ok (.Fun .Closed "closed" false 1 1)
      else if s = "locked" then .ok (.Fun .Locked "locked" false 1 1)
      else
        match w.get_by_name (w.from_script_name s) with
        | none => .err ("undefined identifier: " ++ s)
        | some name => .ok (.Reference name)
    | .Seq l r =>
      match w.evalF n l with
      | .ok lhs =>
        match w.evalF n r with
        | .ok rhs =>
          match lhs, rhs with
          | .Str a, .Str b => .ok (.Str (a ++ b))
          | _, _ => .err "invalid operand for concatenation"
        | .err e => .err e
        | .timeout => .timeout
        | .panicked => .panicked
      | .err e => .err e
      | .timeout => .timeout
      | .panicked => .panicked
    | .Call f args =>
      match w.evalF n f with
      | .ok fv =>
        match fv with
        | .Fun _ name special min_args max_args =>
          let acnt := args.length
          if acnt < min_args then
            .err ("function " ++ name ++ " requires at least " ++
                  toString min_args ++ " arguments, got " ++ toString acnt)
          else if acnt > max_args then
            .err ("function " ++ name ++ " requires at most " ++
                  toString max_args ++ " arguments, got " ++ toString acnt)
          else
            if special then
              applyStep w (w.evalF n) fv (args.map Value.Expr)
            else
              match eval_listStep (w.evalF n) args with
              | .ok arguments => applyStep w (w.evalF n) fv arguments
              | .err e => .err e
              | .timeout => .timeout
              | .panicked => .panicked
        | _ => .err "non-function in function position"
      | .err e => .err e
      | .timeout => .timeout
      | .panicked => .panicked

/-- `World::eval_list` (lib.rs), with fuel. -/
def World.eval_listF (w : World) (n : Nat) (l : List Ast) : Res (List Value) :=
  eval_listStep (w.evalF n) l

/-- `World::apply` (lib.rs), with fuel (for the nested evaluations of
deferred special-form arguments). -/
def World.applyF (w : World) (n : Nat) (f : Value) (args : List Value) : Res Value :=
  applyStep w (w.evalF n) f args

theorem eval_listStep_eq (w : World) (n : Nat) (l : List Ast) :
    eval_listStep (w.evalF n) l = w.eval_listF n l := rfl

theorem applyStep_eq (w : World) (n : Nat) (f : Value) (args : List Value) :
    applyStep w (w.evalF n) f args = w.applyF n f args := rfl

theorem eval_listF_nil (w : World) (n : Nat) : w.eval_listF n [] = .ok [] := rfl

theorem eval_listF_cons (w : World) (n : Nat) (a : Ast) (rest : List Ast) :
    w.eval_listF n (a :: rest) =
      match w.evalF n a with
      | .ok ar =>
        match w.eval_listF n rest with
        | .ok res => .ok (ar :: res)
        | .err e => .err e
        | .timeout => .timeout
        | .panicked => .panicked
      | .err e => .err e
      | .timeout => .timeout
      | .panicked => .panicked := rfl

/-- `World::eval` (lib.rs): run the fueled evaluator with the (sufficient,
proved below) fuel `astSize ast`. -/
def World.eval (w : World) (ast : Ast) : Res Value :=
  w.evalF (astSize ast) ast

/-! ### Debug formatting for the `invalid value: {:?}` message (lib.rs)

`World::eval_str` interpolates the derived `Debug` representation of the
offending `Value`.  The derived format is reproduced below, with two
abstractions: `Uuid`'s debug form is replaced by the decimal form of the
modelled `Nat`, and string escape sequences are not modelled (no string in
scope contains a character that `Debug` would escape). -/

/-- `Debug` quoting of a string: wrap in double quotes. -/
def quoteDbg (s : String) : String := "\"" ++ s ++ "\""

/-- Derived `Debug` output for `Function` (lib.rs). -/
def debugFunction : Function → String
  | .If => "If"
  | .Closed => "Closed"
  | .Locked => "Locked"

mutual

/-- Derived `Debug` output for `Ast` (template.rs). -/
def debugAst : Ast → String
  | .Empty => "Empty"
  | .Seq l r => "Seq(" ++ debugAst l ++ ", " ++ debugAst r ++ ")"
  | .Chr c => "Chr('" ++ String.singleton c ++ "')"
  | .Str s => "Str(" ++ quoteDbg s ++ ")"
  | .Id s => "Id(" ++ quoteDbg s ++ ")"
  | .Call f args => "Call(" ++ debugAst f ++ ", [" ++ debugAstList args ++ "])"

/-- Derived `Debug` output for a `Vec<Ast>`, without the brackets. -/
def debugAstList : List Ast → String
  | [] => ""
  | [a] => debugAst a
  | a :: rest => debugAst a ++ ", " ++ debugAstList rest

end

/-- Derived `Debug` output for `Value` (lib.rs). -/
def debugValue : Value → String
  | .Fun fid nm sp mn mx =>
      "Fun(" ++ debugFunction fid ++ ", " ++ quoteDbg nm ++ ", " ++
      (if sp then "true" else "false") ++ ", " ++ toString mn ++ ", " ++
      toString mx ++ ")"
  | .Reference n => "Reference(" ++ toString n ++ ")"
  | .Str s => "Str(" ++ quoteDbg s ++ ")"
  | .Bool b => "Bool(" ++ (if b then "true" else "false") ++ ")"
  | .Expr a => "Expr(" ++ debugAst a ++ ")"

/-- `World::eval_str` (lib.rs): parse, evaluate, and require a string
result. -/
def World.eval_str (w : World) (txt : String) : Res String :=
  match parse txt with
  | .ok ast =>
    match w.eval ast with
    | .err e => .err e
    | .ok (.Str s) => .ok s
    | .ok val => .err ("invalid value: " ++ debugValue val)
    | .timeout => .timeout
    | .panicked => .panicked
  | .err e => .err e
  | .timeout => .timeout
  | .panicked => .panicked

/-! ## Concrete worlds

`exampleWorld` mirrors `make_example_world` (lib.rs) with the three random
`Uuid`s replaced by the distinct naturals `0` (door), `1` (rock room),
`2` (tunnel); `entity_map` holds exactly the bindings the `BTreeMap` ends
up with.  `dupWorld` is a two-entity world whose entities share one name
path, used to settle the duplicate-name lookup claim. -/

/-- The door entity `d1` of `make_example_world` (lib.rs). -/
def exampleDoor : Entity :=
  { id := 0
    name := ["rusty", "metal", "door"]
    «alias» := some "metal_door_1"
    short_description := "Metalltür"
    long_description := "Eine verbeulte, rostige Tür aus Metall.#(if (closed rusty.metal.door) \" Die Tür ist geschlossen.\" \"\")"
    attributes := [
      .Doorlike { endpoints := (1, 2) },
      .Closable true,
      .Lockable false] }

/-- The room entity `r1` of `make_example_world` (lib.rs). -/
def exampleRoom : Entity :=
  { id := 1
    name := ["small", "rock", "room"]
    «alias» := none
    short_description := "Ein kleiner Raum mit Wänden aus rohem Fels"
    long_description := "Der Raum hat eine Größe von etwa sechs Quadratmetern. Der Boden, die Decke und die Wände bestehen aus roh behauenem Fels. Der Boden ist mit Schutt bedeckt.  In einer der Wände befindet sich eine zugemauerte Türöffnung, gegenüber ist eine #(if (closed rusty.metal.door) \"geschlossene\" \"geöffnete\")#(if (locked rusty.metal.door) \" verriegelte\" \"\") Metalltür eingelassen."
    attributes := [.Roomlike { entities := [0] }] }

/-- The tunnel entity `r2` of `make_example_world` (lib.rs). -/
def exampleTunnel : Entity :=
  { id := 2
    name := ["cramped", "rock", "tunnel"]
    «alias» := none
    short_description := "Ein niedriger Felstunnel"
    long_description := "Ein schmaler, niedriger Tunnel, etwa 1,70 Meter hoch und einen Meter breit. Der Tunnel führt leicht bergab und hat an beiden Enden Metalltüren"
    attributes := [.Roomlike { entities := [0] }] }

/-- `make_example_world` (lib.rs). -/
def exampleWorld : World :=
  { name := "Example World"
    entities := [exampleDoor, exampleRoom, exampleTunnel]
    entity_map := [(0, 0), (1, 1), (2, 2)]
    start_location := 1 }

/-- A world with two distinct entities sharing the name path `["a"]`:
ids `10` (first in collection order) and `20` (second). -/
def dupWorld : World :=
  { name := "dup"
    entities := [
      { id := 10, name := ["a"], «alias» := none, short_description := "",
        long_description := "", attributes := [.Closable true] },
      { id := 20, name := ["a"], «alias» := none, short_description := "",
        long_description := "", attributes := [.Closable false] }]
    entity_map := [(10, 0), (20, 1)]
    start_location := 10 }

/-! ## Scanner measure

`Scanner.meas` bounds the work the parser can still do: every `Scanner.next`
on a non-exhausted scanner strictly decreases it. -/

/-- Remaining-input measure of a scanner. -/
def Scanner.meas (s : Scanner) : Nat :=
  (s.chars.length + 1 - s.pos) + (if s.current.isSome then 1 else 0)

theorem Scanner.meas_next_lt {s : Scanner} {c : Char} (h : s.current = some c) :
    s.next.meas < s.meas := by
  unfold Scanner.next Scanner.meas
  by_cases hlt : s.pos < s.chars.length
  · rw [if_pos hlt]
    simp only [h, Option.isSome_some, if_true]
    have : (if (s.chars.get? s.pos).isSome then 1 else 0) ≤ 1 := by
      split <;> omega
    omega
  · rw [if_neg hlt]
    simp only [h, Option.isSome_some, Option.isSome_none, if_true]
    simp only [Bool.false_eq_true, if_false]
    omega

theorem Scanner.meas_new_le (txt : String) :
    (Scanner.new txt).meas ≤ txt.length + 1 := by
  unfold Scanner.new Scanner.meas
  have : (if (txt.data.get? 0).isSome then 1 else 0) ≤ 1 := by
    split <;> omega
  simp only [String.length]
  omega

/-! ## Parser case equations

Conditional rewriting equations for the fueled parser functions, one per
control-flow case.  These let the proofs below reduce a parser application
once the scanner's current character (and any sub-results) are known. -/

theorem skip_wsF_eq_none {n : Nat} {s : Scanner} (hc : s.current = none) :
    skip_wsF (n + 1) s = some s := by
  simp only [skip_wsF, hc]

theorem skip_wsF_eq_some {n : Nat} {s : Scanner} {c : Char} (hc : s.current = some c) :
    skip_wsF (n + 1) s =
      if c = ' ' ∨ c = '\r' ∨ c = '\n' ∨ c = '\t' then skip_wsF n s.next
      else some s := by
  simp only [skip_wsF, hc]

theorem ident_loopF_eq_none {n : Nat} {ret : String} {s : Scanner}
    (hc : s.current = none) :
    ident_loopF (n + 1) ret s = .ok (.Id ret, s) := by
  simp only [ident_loopF, hc]

theorem ident_loopF_eq_some {n : Nat} {ret : String} {s : Scanner} {c : Char}
    (hc : s.current = some c) :
    ident_loopF (n + 1) ret s =
      if is_ident_cont c then ident_loopF n (ret.push c) s.next
      else .ok (.Id ret, s) := by
  simp only [ident_loopF, hc]

theorem parse_identF_eq_none {n : Nat} {s : Scanner} (hc : s.current = none) :
    parse_identF (n + 1) s = .err "identifier expected" := by
  simp only [parse_identF, hc]

theorem parse_identF_eq_some {n : Nat} {s : Scanner} {c : Char}
    (hc : s.current = some c) :
    parse_identF (n + 1) s =
      if is_ident_start c then ident_loopF n (String.singleton c) s.next
      else .err "identifier expected" := by
  simp only [parse_identF, hc]

theorem parse_stringF_eq_none {n : Nat} {q : Char} {res : String} {s : Scanner}
    (hc : s.current = none) :
    parse_stringF (n + 1) q res s = .err "unexpected end of string in string literal" := by
  simp only [parse_stringF, hc]

theorem parse_stringF_eq_some {n : Nat} {q : Char} {res : String} {s : Scanner}
    {c : Char} (hc : s.current = some c) :
    parse_stringF (n + 1) q res s =
      if c = q then .ok (.Str res, s.next)
      else parse_stringF n q (res.push c) s.next := by
  simp only [parse_stringF, hc]

theorem parse_exprF_eq_timeout {n : Nat} {s : Scanner} (h : skip_wsF n s = none) :
    parse_exprF (n + 1) s = .timeout := by
  simp only [parse_exprF, h]

theorem parse_exprF_eq_eos {n : Nat} {s s1 : Scanner}
    (h : skip_wsF n s = some s1) (hc : s1.current = none) :
    parse_exprF (n + 1) s = .err "unexpected end of string in expression" := by
  simp only [parse_exprF, h, hc]

theorem parse_exprF_eq_some {n : Nat} {s s1 : Scanner} {c : Char}
    (h : skip_wsF n s = some s1) (hc : s1.current = some c) :
    parse_exprF (n + 1) s =
      if c = '(' then parse_callF n s1.next
      else if c = '\'' ∨ c = '"' then parse_stringF n c "" s1.next
      else if is_ident_start c then parse_identF n s1
      else .err ("unexpected character in expression: " ++ String.singleton c) := by
  simp only [parse_exprF, h, hc]

theorem parse_callF_eq_timeout {n : Nat} {s : Scanner} (h : skip_wsF n s = none) :
    parse_callF (n + 1) s = .timeout := by
  simp only [parse_callF, h]

theorem parse_callF_eq_identerr {n : Nat} {s s1 : Scanner} {e : String}
    (h : skip_wsF n s = some s1) (hi : parse_identF n s1 = .err e) :
    parse_callF (n + 1) s = .err e := by
  simp only [parse_callF, h, hi]

theorem parse_callF_eq_identtimeout {n : Nat} {s s1 : Scanner}
    (h : skip_wsF n s = some s1) (hi : parse_identF n s1 = .timeout) :
    parse_callF (n + 1) s = .timeout := by
  simp only [parse_callF, h, hi]

theorem parse_callF_eq_identpanicked {n : Nat} {s s1 : Scanner}
    (h : skip_wsF n s = some s1) (hi : parse_identF n s1 = .panicked) :
    parse_callF (n + 1) s = .panicked := by
  simp only [parse_callF, h, hi]

theorem parse_callF_eq_ws2timeout {n : Nat} {s s1 s2 : Scanner} {id : Ast}
    (h : skip_wsF n s = some s1) (hi : parse_identF n s1 = .ok (id, s2))
    (h2 : skip_wsF n s2 = none) :
    parse_callF (n + 1) s = .timeout := by
  simp only [parse_callF, h, hi, h2]

theorem parse_callF_eq_args {n : Nat} {s s1 s2 s3 : Scanner} {id : Ast}
    (h : skip_wsF n s = some s1) (hi : parse_identF n s1 = .ok (id, s2))
    (h2 : skip_wsF n s2 = some s3) :
    parse_callF (n + 1) s = call_argsF n id [] s3 := by
  simp only [parse_callF, h, hi, h2]

theorem call_argsF_eq_none {n : Nat} {id : Ast} {args : List Ast} {s : Scanner}
    (hc : s.current = none) :
    call_argsF (n + 1) id args s = .err "unexpected end of string in call expression" := by
  simp only [call_argsF, hc]

theorem call_argsF_eq_close {n : Nat} {id : Ast} {args : List Ast} {s : Scanner}
    (hc : s.current = some ')') :
    call_argsF (n + 1) id args s = .ok (.Call id args, s.next) := by
  simp [call_argsF, hc]

theorem call_argsF_eq_exprok {n : Nat} {id a : Ast} {args : List Ast}
    {s s1 : Scanner} {c : Char} (hc : s.current = some c) (hne : ¬c = ')')
    (he : parse_exprF n s = .ok (a, s1)) :
    call_argsF (n + 1) id args s = call_argsF n id (args ++ [a]) s1 := by
  simp only [call_argsF, hc, hne, if_false, ite_false, he]

theorem call_argsF_eq_exprerr {n : Nat} {id : Ast} {args : List Ast}
    {s : Scanner} {c : Char} {e : String} (hc : s.current = some c) (hne : ¬c = ')')
    (he : parse_exprF n s = .err e) :
    call_argsF (n + 1) id args s = .err e := by
  simp only [call_argsF, hc, hne, if_false, ite_false, he]

theorem call_argsF_eq_exprtimeout {n : Nat} {id : Ast} {args : List Ast}
    {s : Scanner} {c : Char} (hc : s.current = some c) (hne : ¬c = ')')
    (he : parse_exprF n s = .timeout) :
    call_argsF (n + 1) id args s = .timeout := by
  simp only [call_argsF, hc, hne, if_false, ite_false, he]

theorem call_argsF_eq_exprpanicked {n : Nat} {id : Ast} {args : List Ast}
    {s : Scanner} {c : Char} (hc : s.current = some c) (hne : ¬c = ')')
    (he : parse_exprF n s = .panicked) :
    call_argsF (n + 1) id args s = .panicked := by
  simp only [call_argsF, hc, hne, if_false, ite_false, he]

theorem lit_runF_eq_none {n : Nat} {acc : String} {s : Scanner}
    (hc : s.current = none) :
    lit_runF (n + 1) acc s = some (acc, s) := by
  simp only [lit_runF, hc]

theorem lit_runF_eq_hash {n : Nat} {acc : String} {s : Scanner}
    (hc : s.current = some '#') :
    lit_runF (n + 1) acc s = some (acc, s) := by
  simp [lit_runF, hc]

theorem lit_runF_eq_cont {n : Nat} {acc : String} {s : Scanner} {c : Char}
    (hc : s.current = some c) (hne : ¬c = '#') :
    lit_runF (n + 1) acc s = lit_runF n (acc.push c) s.next := by
  simp only [lit_runF, hc, hne, if_false, ite_false]

theorem parse_loopF_eq_none {n : Nat} {ret : Ast} {s : Scanner}
    (hc : s.current = none) :
    parse_loopF (n + 1) ret s = .ok ret := by
  simp only [parse_loopF, hc]

theorem parse_loopF_eq_exprok {n : Nat} {ret a : Ast} {s s1 : Scanner}
    (hc : s.current = some '#') (he : parse_exprF n s.next = .ok (a, s1)) :
    parse_loopF (n + 1) ret s = parse_loopF n (.Seq ret a) s1 := by
  simp [parse_loopF, hc, he]

theorem parse_loopF_eq_exprerr {n : Nat} {ret : Ast} {s : Scanner} {e : String}
    (hc : s.current = some '#') (he : parse_exprF n s.next = .err e) :
    parse_loopF (n + 1) ret s = .err e := by
  simp [parse_loopF, hc, he]

theorem parse_loopF_eq_exprtimeout {n : Nat} {ret : Ast} {s : Scanner}
    (hc : s.current = some '#') (he : parse_exprF n s.next = .timeout) :
    parse_loopF (n + 1) ret s = .timeout := by
  simp [parse_loopF, hc, he]

theorem parse_loopF_eq_exprpanicked {n : Nat} {ret : Ast} {s : Scanner}
    (hc : s.current = some '#') (he : parse_exprF n s.next = .panicked) :
    parse_loopF (n + 1) ret s = .panicked := by
  simp [parse_loopF, hc, he]

theorem parse_loopF_eq_littimeout {n : Nat} {ret : Ast} {s : Scanner} {c : Char}
    (hc : s.current = some c) (hne : ¬c = '#')
    (hl : lit_runF n (String.singleton c) s.next = none) :
    parse_loopF (n + 1) ret s = .timeout := by
  simp only [parse_loopF, hc, hne, if_false, ite_false, hl]

theorem parse_loopF_eq_lit {n : Nat} {ret : Ast} {s s1 : Scanner} {c : Char}
    {acc : String} (hc : s.current = some c) (hne : ¬c = '#')
    (hl : lit_runF n (String.singleton c) s.next = some (acc, s1)) :
    parse_loopF (n + 1) ret s = parse_loopF n (.Seq ret (.Str acc)) s1 := by
  simp only [parse_loopF, hc, hne, if_false, ite_false, hl]

/-! ## Parser adequacy

One simultaneous induction on fuel showing that every parser function
terminates (never returns the fuel-exhaustion marker) whenever its fuel
exceeds twice the scanner measure plus a per-function slack, and that each
function consumes input (weakly for the skipping helpers, strictly for the
producing ones). -/

/-- The induction bundle for parser adequacy at fuel `n`. -/
def ParserGood (n : Nat) : Prop :=
  (∀ s : Scanner, 2 * s.meas < n →
    ∃ s', skip_wsF n s = some s' ∧ s'.meas ≤ s.meas) ∧
  (∀ (ret : String) (s : Scanner), 2 * s.meas < n →
    ∃ r s', ident_loopF n ret s = .ok (.Id r, s') ∧ s'.meas ≤ s.meas) ∧
  (∀ s : Scanner, 2 * s.meas < n →
    parse_identF n s ≠ .timeout ∧
    ∀ a s', parse_identF n s = .ok (a, s') → s'.meas < s.meas) ∧
  (∀ (q : Char) (res : String) (s : Scanner), 2 * s.meas < n →
    parse_stringF n q res s ≠ .timeout ∧
    ∀ a s', parse_stringF n q res s = .ok (a, s') → s'.meas < s.meas) ∧
  (∀ s : Scanner, 2 * s.meas + 1 < n →
    parse_exprF n s ≠ .timeout ∧
    ∀ a s', parse_exprF n s = .ok (a, s') → s'.meas < s.meas) ∧
  (∀ s : Scanner, 2 * s.meas + 2 < n →
    parse_callF n s ≠ .timeout ∧
    ∀ a s', parse_callF n s = .ok (a, s') → s'.meas < s.meas) ∧
  (∀ (id : Ast) (args : List Ast) (s : Scanner), 2 * s.meas + 3 < n →
    call_argsF n id args s ≠ .timeout ∧
    ∀ a s', call_argsF n id args s = .ok (a, s') → s'.meas < s.meas) ∧
  (∀ (acc : String) (s : Scanner), 2 * s.meas < n →
    ∃ acc' s', lit_runF n acc s = some (acc', s') ∧ s'.meas ≤ s.meas) ∧
  (∀ (ret : Ast) (s : Scanner), 2 * s.meas < n →
    parse_loopF n ret s ≠ .timeout)

theorem parserGood : ∀ n, ParserGood n := by
  intro n
  induction n with
  | zero =>
    refine ⟨?_, ?_, ?_, ?_, ?_, ?_, ?_, ?_, ?_⟩ <;> intros <;> omega
  | succ n ih =>
    obtain ⟨ihw, ihil, ihid, ihstr, ihex, ihcall, ihargs, ihlit, ihloop⟩ := ih
    have hskip : ∀ s : Scanner, 2 * s.meas < n + 1 →
        ∃ s', skip_wsF (n + 1) s = some s' ∧ s'.meas ≤ s.meas := by
      intro s hm
      cases hc : s.current with
      | none => exact ⟨s, skip_wsF_eq_none hc, le_refl _⟩
      | some c =>
        rw [skip_wsF_eq_some hc]
        split
        · have hlt := Scanner.meas_next_lt hc
          obtain ⟨s', hs', hle⟩ := ihw s.next (by omega)
          exact ⟨s', hs', le_trans hle (le_of_lt hlt)⟩
        · exact ⟨s, rfl, le_refl _⟩
    have hidl : ∀ (ret : String) (s : Scanner), 2 * s.meas < n + 1 →
        ∃ r s', ident_loopF (n + 1) ret s = .ok (.Id r, s') ∧ s'.meas ≤ s.meas := by
      intro ret s hm
      cases hc : s.current with
      | none => exact ⟨ret, s, ident_loopF_eq_none hc, le_refl _⟩
      | some c =>
        rw [ident_loopF_eq_some hc]
        split
        · have hlt := Scanner.meas_next_lt hc
          obtain ⟨r, s', hs', hle⟩ := ihil (ret.push c) s.next (by omega)
          exact ⟨r, s', hs', le_trans hle (le_of_lt hlt)⟩
        · exact ⟨ret, s, rfl, le_refl _⟩
    have hident : ∀ s : Scanner, 2 * s.meas < n + 1 →
        parse_identF (n + 1) s ≠ .timeout ∧
        ∀ a s', parse_identF (n + 1) s = .ok (a, s') → s'.meas < s.meas := by
      intro s hm
      cases hc : s.current with
      | none =>
        rw [parse_identF_eq_none hc]
        exact ⟨by simp, by intro a s' h; simp at h⟩
      | some c =>
        rw [parse_identF_eq_some hc]
        split
        · have hlt := Scanner.meas_next_lt hc
          obtain ⟨r, s', hs', hle⟩ := ihil (String.singleton c) s.next (by omega)
          rw [hs']
          refine ⟨by simp, ?_⟩
          intro a s'' heq
          cases heq
          omega
        · exact ⟨by simp, by intro a s' h; simp at h⟩
    have hstring : ∀ (q : Char) (res : String) (s : Scanner), 2 * s.meas < n + 1 →
        parse_stringF (n + 1) q res s ≠ .timeout ∧
        ∀ a s', parse_stringF (n + 1) q res s = .ok (a, s') → s'.meas < s.meas := by
      intro q res s hm
      cases hc : s.current with
      | none =>
        rw [parse_stringF_eq_none hc]
        exact ⟨by simp, by intro a s' h; simp at h⟩
      | some c =>
        have hlt := Scanner.meas_next_lt hc
        rw [parse_stringF_eq_some hc]
        split
        · refine ⟨by simp, ?_⟩
          intro a s'' heq
          cases heq
          omega
        · obtain ⟨hnt, hms⟩ := ihstr q (res.push c) s.next (by omega)
          refine ⟨hnt, ?_⟩
          intro a s'' heq
          exact lt_trans (hms a s'' heq) hlt
    have hexpr : ∀ s : Scanner, 2 * s.meas + 1 < n + 1 →
        parse_exprF (n + 1) s ≠ .timeout ∧
        ∀ a s', parse_exprF (n + 1) s = .ok (a, s') → s'.meas < s.meas := by
      intro s hm
      obtain ⟨s1, hs1, hle1⟩ := ihw s (by omega)
      cases hc : s1.current with
      | none =>
        rw [parse_exprF_eq_eos hs1 hc]
        exact ⟨by simp, by intro a s' h; simp at h⟩
      | some c =>
        have hlt := Scanner.meas_next_lt hc
        rw [parse_exprF_eq_some hs1 hc]
        split
        · obtain ⟨hnt, hbd⟩ := ihcall s1.next (by omega)
          refine ⟨hnt, ?_⟩
          intro a s'' heq
          have := hbd a s'' heq
          omega
        · split
          · obtain ⟨hnt, hbd⟩ := ihstr c "" s1.next (by omega)
            refine ⟨hnt, ?_⟩
            intro a s'' heq
            have := hbd a s'' heq
            omega
          · split
            · obtain ⟨hnt, hbd⟩ := ihid s1 (by omega)
              refine ⟨hnt, ?_⟩
              intro a s'' heq
              have := hbd a s'' heq
              omega
            · exact ⟨by simp, by intro a s' h; simp at h⟩
    have hcall : ∀ s : Scanner, 2 * s.meas + 2 < n + 1 →
        parse_callF (n + 1) s ≠ .timeout ∧
        ∀ a s', parse_callF (n + 1) s = .ok (a, s') → s'.meas < s.meas := by
      intro s hm
      obtain ⟨s1, hs1, hle1⟩ := ihw s (by omega)
      obtain ⟨hidnt, hidbd⟩ := ihid s1 (by omega)
      cases hres : parse_identF n s1 with
      | timeout => exact absurd hres hidnt
      | panicked =>
        rw [parse_callF_eq_identpanicked hs1 hres]
        exact ⟨by simp, by intro a s' h; simp at h⟩
      | err e =>
        rw [parse_callF_eq_identerr hs1 hres]
        exact ⟨by simp, by intro a s' h; simp at h⟩
      | ok p =>
        obtain ⟨id, s2⟩ := p
        have hlt2 := hidbd id s2 hres
        obtain ⟨s3, hs3, hle3⟩ := ihw s2 (by omega)
        rw [parse_callF_eq_args hs1 hres hs3]
        obtain ⟨hant, habd⟩ := ihargs id [] s3 (by omega)
        refine ⟨hant, ?_⟩
        intro a s'' heq
        have := habd a s'' heq
        omega
    have hargs : ∀ (id : Ast) (args : List Ast) (s : Scanner), 2 * s.meas + 3 < n + 1 →
        call_argsF (n + 1) id args s ≠ .timeout ∧
        ∀ a s', call_argsF (n + 1) id args s = .ok (a, s') → s'.meas < s.meas := by
      intro id args s hm
      cases hc : s.current with
      | none =>
        rw [call_argsF_eq_none hc]
        exact ⟨by simp, by intro a s' h; simp at h⟩
      | some c =>
        have hlt := Scanner.meas_next_lt hc
        by_cases hcp : c = ')'
        · subst hcp
          rw [call_argsF_eq_close hc]
          refine ⟨by simp, ?_⟩
          intro a s'' heq
          cases heq
          omega
        · obtain ⟨hent, hebd⟩ := ihex s (by omega)
          cases hres : parse_exprF n s with
          | timeout => exact absurd hres hent
          | panicked =>
            rw [call_argsF_eq_exprpanicked hc hcp hres]
            exact ⟨by simp, by intro a s' h; simp at h⟩
          | err e =>
            rw [call_argsF_eq_exprerr hc hcp hres]
            exact ⟨by simp, by intro a s' h; simp at h⟩
          | ok p =>
            obtain ⟨a, s1⟩ := p
            have hlt1 := hebd a s1 hres
            rw [call_argsF_eq_exprok hc hcp hres]
            obtain ⟨hant, habd⟩ := ihargs id (args ++ [a]) s1 (by omega)
            refine ⟨hant, ?_⟩
            intro a2 s'' heq
            have := habd a2 s'' heq
            omega
    have hlit : ∀ (acc : String) (s : Scanner), 2 * s.meas < n + 1 →
        ∃ acc' s', lit_runF (n + 1) acc s = some (acc', s') ∧ s'.meas ≤ s.meas := by
      intro acc s hm
      cases hc : s.current with
      | none => exact ⟨acc, s, lit_runF_eq_none hc, le_refl _⟩
      | some c =>
        by_cases hcp : c = '#'
        · subst hcp
          exact ⟨acc, s, lit_runF_eq_hash hc, le_refl _⟩
        · have hlt := Scanner.meas_next_lt hc
          rw [lit_runF_eq_cont hc hcp]
          obtain ⟨acc', s', hs', hle⟩ := ihlit (acc.push c) s.next (by omega)
          exact ⟨acc', s', hs', le_trans hle (le_of_lt hlt)⟩
    have hloop : ∀ (ret : Ast) (s : Scanner), 2 * s.meas < n + 1 →
        parse_loopF (n + 1) ret s ≠ .timeout := by
      intro ret s hm
      cases hc : s.current with
      | none => rw [parse_loopF_eq_none hc]; simp
      | some c =>
        have hlt := Scanner.meas_next_lt hc
        by_cases hcp : c = '#'
        · subst hcp
          obtain ⟨hent, hebd⟩ := ihex s.next (by omega)
          cases hres : parse_exprF n s.next with
          | timeout => exact absurd hres hent
          | panicked => rw [parse_loopF_eq_exprpanicked hc hres]; simp
          | err e => rw [parse_loopF_eq_exprerr hc hres]; simp
          | ok p =>
            obtain ⟨a, s1⟩ := p
            have hlt1 := hebd a s1 hres
            rw [parse_loopF_eq_exprok hc hres]
            exact ihloop (.Seq ret a) s1 (by omega)
        · obtain ⟨acc', s1, hs1, hle1⟩ := ihlit (String.singleton c) s.next (by omega)
          rw [parse_loopF_eq_lit hc hcp hs1]
          exact ihloop (.Seq ret (.Str acc')) s1 (by omega)
    exact ⟨hskip, hidl, hident, hstring, hexpr, hcall, hargs, hlit, hloop⟩

/-- `parse` never exhausts its fuel: the fuel chosen in `parse` is
sufficient for every input string. -/
theorem parse_ne_timeout (txt : String) : parse txt ≠ .timeout := by
  have h := (parserGood (2 * txt.length + 3)).2.2.2.2.2.2.2.2
  have hmeas := Scanner.meas_new_le txt
  exact h .Empty (Scanner.new txt) (by omega)

/-! ## Evaluator structural lemmas -/

/-- Whether a value is a deferred expression. -/
def valueIsExpr : Value → Bool
  | .Expr _ => true
  | _ => false

theorem astSize_pos (ast : Ast) : 1 ≤ astSize ast := by
  cases ast <;> simp [astSize]

theorem astSize_le_of_mem {a : Ast} : ∀ {l : List Ast}, a ∈ l → astSize a ≤ astListSize l := by
  intro l h
  induction l with
  | nil => cases h
  | cons b rest ihr =>
    rcases List.mem_cons.mp h with hb | hr
    · subst hb
      simp only [astListSize]
      omega
    · have := ihr hr
      simp only [astListSize]
      omega

/-- The evaluator never produces a deferred-expression value: helper for
`World.applyF`, assuming the property for `World.evalF` at the same fuel. -/
theorem applyF_ok_noExpr (w : World) (n : Nat)
    (hev : ∀ ast v, w.evalF n ast = .ok v → valueIsExpr v = false) :
    ∀ f args v, w.applyF n f args = .ok v → valueIsExpr v = false := by
  intro f args v h
  cases f with
  | Fun fid nm sp mn mx =>
    cases fid with
    | If =>
      cases h0 : args.get? 0 with
      | none =>
        simp only [World.applyF, applyStep, h0] at h
        exact Res.noConfusion h
      | some v0 =>
        cases v0 with
        | Expr cond =>
          cases hc : w.evalF n cond with
          | ok cval =>
            cases cval with
            | Bool b =>
              cases hbr : (if b then args.get? 1 else args.get? 2) with
              | none =>
                simp only [World.applyF, applyStep, h0, hc, hbr] at h
                exact Res.noConfusion h
              | some e =>
                cases e with
                | Expr ee =>
                  simp only [World.applyF, applyStep, h0, hc, hbr] at h
                  exact hev ee v h
                | Fun f2 n2 s2 m2 x2 =>
                  simp only [World.applyF, applyStep, h0, hc, hbr] at h
                  exact Res.noConfusion h
                | Reference r2 =>
                  simp only [World.applyF, applyStep, h0, hc, hbr] at h
                  exact Res.noConfusion h
                | Str s2 =>
                  simp only [World.applyF, applyStep, h0, hc, hbr] at h
                  exact Res.noConfusion h
                | Bool b2 =>
                  simp only [World.applyF, applyStep, h0, hc, hbr] at h
                  exact Res.noConfusion h
            | Fun f2 n2 s2 m2 x2 =>
              simp only [World.applyF, applyStep, h0, hc] at h
              exact Res.noConfusion h
            | Reference r2 =>
              simp only [World.applyF, applyStep, h0, hc] at h
              exact Res.noConfusion h
            | Str s2 =>
              simp only [World.applyF, applyStep, h0, hc] at h
              exact Res.noConfusion h
            | Expr a2 =>
              simp only [World.applyF, applyStep, h0, hc] at h
              exact Res.noConfusion h
          | err e =>
            simp only [World.applyF, applyStep, h0, hc] at h
            exact Res.noConfusion h
          | timeout =>
            simp only [World.applyF, applyStep, h0, hc] at h
            exact Res.noConfusion h
          | panicked =>
            simp only [World.applyF, applyStep, h0, hc] at h
            exact Res.noConfusion h
        | Fun f2 n2 s2 m2 x2 =>
          simp only [World.applyF, applyStep, h0] at h
          exact Res.noConfusion h
        | Reference r2 =>
          simp only [World.applyF, applyStep, h0] at h
          exact Res.noConfusion h
        | Str s2 =>
          simp only [World.applyF, applyStep, h0] at h
          exact Res.noConfusion h
        | Bool b2 =>
          simp only [World.applyF, applyStep, h0] at h
          exact Res.noConfusion h
    | Closed =>
      cases h0 : args.get? 0 with
      | none =>
        simp only [World.applyF, applyStep, h0] at h
        exact Res.noConfusion h
      | some v0 =>
        cases v0 with
        | Reference name =>
          cases hent : w.entity name with
          | none =>
            simp only [World.applyF, applyStep, h0, hent] at h
            exact Res.noConfusion h
          | some ent =>
            cases hfind : ent.attributes.find? (fun a =>
                match a with | .Closable _ => true | _ => false) with
            | none =>
              simp only [World.applyF, applyStep, h0, hent, hfind] at h
              cases h
              rfl
            | some attr =>
              cases attr <;> simp only [World.applyF, applyStep, h0, hent, hfind] at h <;>
                (cases h; rfl)
        | Fun f2 n2 s2 m2 x2 =>
          simp only [World.applyF, applyStep, h0] at h
          exact Res.noConfusion h
        | Str s2 =>
          simp only [World.applyF, applyStep, h0] at h
          exact Res.noConfusion h
        | Bool b2 =>
          simp only [World.applyF, applyStep, h0] at h
          exact Res.noConfusion h
        | Expr a2 =>
          simp only [World.applyF, applyStep, h0] at h
          exact Res.noConfusion h
    | Locked =>
      cases h0 : args.get? 0 with
      | none =>
        simp only [World.applyF, applyStep, h0] at h
        exact Res.noConfusion h
      | some v0 =>
        cases v0 with
        | Reference name =>
          cases hent : w.entity name with
          | none =>
            simp only [World.applyF, applyStep, h0, hent] at h
            exact Res.noConfusion h
          | some ent =>
            cases hfind : ent.attributes.find? (fun a =>
                match a with | .Lockable _ => true | _ => false) with
            | none =>
              simp only [World.applyF, applyStep, h0, hent, hfind] at h
              cases h
              rfl
            | some attr =>
              cases attr <;> simp only [World.applyF, applyStep, h0, hent, hfind] at h <;>
                (cases h; rfl)
        | Fun f2 n2 s2 m2 x2 =>
          simp only [World.applyF, applyStep, h0] at h
          exact Res.noConfusion h
        | Str s2 =>
          simp only [World.applyF, applyStep, h0] at h
          exact Res.noConfusion h
        | Bool b2 =>
          simp only [World.applyF, applyStep, h0] at h
          exact Res.noConfusion h
        | Expr a2 =>
          simp only [World.applyF, applyStep, h0] at h
          exact Res.noConfusion h
  | Reference r2 =>
    simp only [World.applyF, applyStep] at h
    exact Res.noConfusion h
  | Str s2 =>
    simp only [World.applyF, applyStep] at h
    exact Res.noConfusion h
  | Bool b2 =>
    simp only [World.applyF, applyStep] at h
    exact Res.noConfusion h
  | Expr a2 =>
    simp only [World.applyF, applyStep] at h
    exact Res.noConfusion h

/-- No-deferred-value property for `World.eval_listF`, assuming it for
`World.evalF` at the same fuel. -/
theorem eval_listF_ok_noExpr (w : World) (n : Nat)
    (hev : ∀ ast v, w.evalF n ast = .ok v → valueIsExpr v = false) :
    ∀ l vs, w.eval_listF n l = .ok vs → ∀ v ∈ vs, valueIsExpr v = false := by
  intro l
  induction l with
  | nil =>
    intro vs h v hv
    simp only [eval_listF_nil, eval_listF_cons] at h
    cases h
    cases hv
  | cons a rest ihr =>
    intro vs h v hv
    cases ha : w.evalF n a with
    | ok ar =>
      cases hrest : w.eval_listF n rest with
      | ok res =>
        simp only [eval_listF_nil, eval_listF_cons, ha, hrest] at h
        cases h
        rcases List.mem_cons.mp hv with hva | hvr
        · subst hva
          exact hev a v ha
        · exact ihr res hrest v hvr
      | err e =>
        simp only [eval_listF_nil, eval_listF_cons, ha, hrest] at h
        exact Res.noConfusion h
      | timeout =>
        simp only [eval_listF_nil, eval_listF_cons, ha, hrest] at h
        exact Res.noConfusion h
      | panicked =>
        simp only [eval_listF_nil, eval_listF_cons, ha, hrest] at h
        exact Res.noConfusion h
    | err e =>
      simp only [eval_listF_nil, eval_listF_cons, ha] at h
      exact Res.noConfusion h
    | timeout =>
      simp only [eval_listF_nil, eval_listF_cons, ha] at h
      exact Res.noConfusion h
    | panicked =>
      simp only [eval_listF_nil, eval_listF_cons, ha] at h
      exact Res.noConfusion h

/-- The evaluator never returns a deferred expression: a successful
`World.evalF` result is never a `Value.Expr`. -/
theorem evalF_ok_noExpr :
    ∀ (n : Nat) (w : World) (ast : Ast) (v : Value),
      w.evalF n ast = .ok v → valueIsExpr v = false := by
  intro n
  induction n with
  | zero =>
    intro w ast v h
    simp only [World.evalF, applyStep_eq, eval_listStep_eq] at h
    exact Res.noConfusion h
  | succ n ih =>
    intro w ast v h
    cases ast with
    | Empty =>
      simp only [World.evalF, applyStep_eq, eval_listStep_eq] at h
      cases h
      rfl
    | Chr c =>
      simp only [World.evalF, applyStep_eq, eval_listStep_eq] at h
      cases h
      rfl
    | Str s =>
      simp only [World.evalF, applyStep_eq, eval_listStep_eq] at h
      cases h
      rfl
    | Id s =>
      simp only [World.evalF, applyStep_eq, eval_listStep_eq] at h
      split_ifs at h
      · cases h; rfl
      · cases h; rfl
      · cases h; rfl
      · cases hg : w.get_by_name (w.from_script_name s) with
        | none =>
          rw [hg] at h
          exact Res.noConfusion h
        | some name =>
          rw [hg] at h
          cases h
          rfl
    | Seq l r =>
      simp only [World.evalF, applyStep_eq, eval_listStep_eq] at h
      cases hl : w.evalF n l with
      | ok lhs =>
        cases hr : w.evalF n r with
        | ok rhs =>
          simp only [hl, hr] at h
          cases lhs <;> cases rhs <;> (try exact Res.noConfusion h)
          cases h
          rfl
        | err e =>
          simp only [hl, hr] at h
          exact Res.noConfusion h
        | timeout =>
          simp only [hl, hr] at h
          exact Res.noConfusion h
        | panicked =>
          simp only [hl, hr] at h
          exact Res.noConfusion h
      | err e =>
        simp only [hl] at h
        exact Res.noConfusion h
      | timeout =>
        simp only [hl] at h
        exact Res.noConfusion h
      | panicked =>
        simp only [hl] at h
        exact Res.noConfusion h
    | Call f args =>
      simp only [World.evalF, applyStep_eq, eval_listStep_eq] at h
      cases hf : w.evalF n f with
      | ok fv =>
        cases fv with
        | Fun fid nm sp mn mx =>
          simp only [hf] at h
          split_ifs at h
          · exact applyF_ok_noExpr w n (ih w) _ _ v h
          · cases hl : w.eval_listF n args with
            | ok arguments =>
              rw [hl] at h
              exact applyF_ok_noExpr w n (ih w) _ _ v h
            | err e =>
              rw [hl] at h
              exact Res.noConfusion h
            | timeout =>
              rw [hl] at h
              exact Res.noConfusion h
            | panicked =>
              rw [hl] at h
              exact Res.noConfusion h
        | Reference r2 =>
          simp only [hf] at h
          exact Res.noConfusion h
        | Str s2 =>
          simp only [hf] at h
          exact Res.noConfusion h
        | Bool b2 =>
          simp only [hf] at h
          exact Res.noConfusion h
        | Expr a2 =>
          simp only [hf] at h
          exact Res.noConfusion h
      | err e =>
        simp only [hf] at h
        exact Res.noConfusion h
      | timeout =>
        simp only [hf] at h
        exact Res.noConfusion h
      | panicked =>
        simp only [hf] at h
        exact Res.noConfusion h

/-- Fuel irrelevance for `World.applyF`: the fuel only feeds the nested
`World.evalF` calls on deferred arguments. -/
theorem applyF_mono (w : World) (n m : Nat)
    (hev : ∀ ast, astSize ast ≤ n → w.evalF m ast = w.evalF n ast) :
    ∀ f args, (∀ a, (Value.Expr a) ∈ args → astSize a ≤ n) →
      w.applyF m f args = w.applyF n f args := by
  intro f args hargs
  cases f with
  | Fun fid nm sp mn mx =>
    cases fid with
    | If =>
      cases h0 : args.get? 0 with
      | none => simp only [World.applyF, applyStep, h0]
      | some v0 =>
        cases v0 with
        | Expr cond =>
          have hsz : astSize cond ≤ n := hargs cond (List.get?_mem h0)
          have hc' : w.evalF m cond = w.evalF n cond := hev cond hsz
          cases hc : w.evalF n cond with
          | ok cval =>
            cases cval with
            | Bool b =>
              cases hbr : (if b then args.get? 1 else args.get? 2) with
              | none => simp only [World.applyF, applyStep, h0, hc'.trans hc, hc, hbr]
              | some e =>
                have hmem : e ∈ args := by
                  cases b <;> simp at hbr <;> exact List.getElem?_mem hbr
                cases e with
                | Expr ee =>
                  have hsze : astSize ee ≤ n := hargs ee hmem
                  simp only [World.applyF, applyStep, h0, hc'.trans hc, hc, hbr, hev ee hsze]
                | Fun f2 n2 s2 m2 x2 => simp only [World.applyF, applyStep, h0, hc'.trans hc, hc, hbr]
                | Reference r2 => simp only [World.applyF, applyStep, h0, hc'.trans hc, hc, hbr]
                | Str s2 => simp only [World.applyF, applyStep, h0, hc'.trans hc, hc, hbr]
                | Bool b2 => simp only [World.applyF, applyStep, h0, hc'.trans hc, hc, hbr]
            | Fun f2 n2 s2 m2 x2 => simp only [World.applyF, applyStep, h0, hc'.trans hc, hc]
            | Reference r2 => simp only [World.applyF, applyStep, h0, hc'.trans hc, hc]
            | Str s2 => simp only [World.applyF, applyStep, h0, hc'.trans hc, hc]
            | Expr a2 => simp only [World.applyF, applyStep, h0, hc'.trans hc, hc]
          | err e => simp only [World.applyF, applyStep, h0, hc'.trans hc, hc]
          | timeout => simp only [World.applyF, applyStep, h0, hc'.trans hc, hc]
          | panicked => simp only [World.applyF, applyStep, h0, hc'.trans hc, hc]
        | Fun f2 n2 s2 m2 x2 => simp only [World.applyF, applyStep, h0]
        | Reference r2 => simp only [World.applyF, applyStep, h0]
        | Str s2 => simp only [World.applyF, applyStep, h0]
        | Bool b2 => simp only [World.applyF, applyStep, h0]
    | Closed => simp only [World.applyF, applyStep]
    | Locked => simp only [World.applyF, applyStep]
  | Reference r2 => simp only [World.applyF, applyStep]
  | Str s2 => simp only [World.applyF, applyStep]
  | Bool b2 => simp only [World.applyF, applyStep]
  | Expr a2 => simp only [World.applyF, applyStep]

/-- Fuel irrelevance for `World.eval_listF`. -/
theorem eval_listF_mono (w : World) (n m : Nat)
    (hev : ∀ ast, astSize ast ≤ n → w.evalF m ast = w.evalF n ast) :
    ∀ l, (∀ a ∈ l, astSize a ≤ n) →
      w.eval_listF m l = w.eval_listF n l := by
  intro l
  induction l with
  | nil => intro _; simp only [eval_listF_nil, eval_listF_cons]
  | cons a rest ihr =>
    intro hsz
    have ha : w.evalF m a = w.evalF n a := hev a (hsz a (List.mem_cons_self a rest))
    have hrest : w.eval_listF m rest = w.eval_listF n rest :=
      ihr (fun x hx => hsz x (List.mem_cons_of_mem a hx))
    simp only [eval_listF_nil, eval_listF_cons, ha, hrest]

/-- Fuel irrelevance for `World.evalF`: any fuel at least `astSize ast`
produces the same result as fuel exactly `astSize ast`. -/
theorem evalF_mono :
    ∀ (n : Nat) (w : World) (ast : Ast), astSize ast ≤ n →
      ∀ m, n ≤ m → w.evalF m ast = w.evalF n ast := by
  intro n
  induction n with
  | zero =>
    intro w ast hsz
    have := astSize_pos ast
    omega
  | succ n ih =>
    intro w ast hsz m hm
    obtain ⟨m', rfl⟩ : ∃ m', m = m' + 1 := ⟨m - 1, by omega⟩
    have hm' : n ≤ m' := by omega
    cases ast with
    | Empty => simp only [World.evalF, applyStep_eq, eval_listStep_eq]
    | Chr c => simp only [World.evalF, applyStep_eq, eval_listStep_eq]
    | Str s => simp only [World.evalF, applyStep_eq, eval_listStep_eq]
    | Id s => simp only [World.evalF, applyStep_eq, eval_listStep_eq]
    | Seq l r =>
      have hsl : astSize l ≤ n := by
        have := astSize_pos r; simp only [astSize] at hsz; omega
      have hsr : astSize r ≤ n := by
        have := astSize_pos l; simp only [astSize] at hsz; omega
      simp only [World.evalF, applyStep_eq, eval_listStep_eq, ih w l hsl m' hm', ih w r hsr m' hm']
    | Call f args =>
      have hsf : astSize f ≤ n := by simp only [astSize] at hsz; omega
      have hsargs : astListSize args ≤ n := by
        have := astSize_pos f; simp only [astSize] at hsz; omega
      have hf' : w.evalF m' f = w.evalF n f := ih w f hsf m' hm'
      have hevn : ∀ a, astSize a ≤ n → w.evalF m' a = w.evalF n a :=
        fun a hsa => ih w a hsa m' hm'
      cases hf : w.evalF n f with
      | ok fv =>
        cases fv with
        | Fun fid nm sp mn mx =>
          have hlst : w.eval_listF m' args = w.eval_listF n args :=
            eval_listF_mono w n m' hevn args
              (fun a ha => le_trans (astSize_le_of_mem ha) hsargs)
          cases hl : w.eval_listF n args with
          | ok vals =>
            have hnoexp : ∀ a, (Value.Expr a) ∈ vals → astSize a ≤ n := by
              intro a hav
              have := eval_listF_ok_noExpr w n (fun ast v hv => evalF_ok_noExpr n w ast v hv)
                args vals hl (Value.Expr a) hav
              simp [valueIsExpr] at this
            have happ : w.applyF m' (Value.Fun fid nm sp mn mx) vals =
                w.applyF n (Value.Fun fid nm sp mn mx) vals :=
              applyF_mono w n m' hevn _ vals hnoexp
            have happ2 : w.applyF m' (Value.Fun fid nm sp mn mx) (args.map Value.Expr) =
                w.applyF n (Value.Fun fid nm sp mn mx) (args.map Value.Expr) := by
              refine applyF_mono w n m' hevn _ _ ?_
              intro a ha
              obtain ⟨b, hb, hab⟩ := List.mem_map.mp ha
              cases hab
              exact le_trans (astSize_le_of_mem hb) hsargs
            simp only [World.evalF, applyStep_eq, eval_listStep_eq, hf', hf, hlst, hl, happ, happ2]
          | err e =>
            have happ2 : w.applyF m' (Value.Fun fid nm sp mn mx) (args.map Value.Expr) =
                w.applyF n (Value.Fun fid nm sp mn mx) (args.map Value.Expr) := by
              refine applyF_mono w n m' hevn _ _ ?_
              intro a ha
              obtain ⟨b, hb, hab⟩ := List.mem_map.mp ha
              cases hab
              exact le_trans (astSize_le_of_mem hb) hsargs
            simp only [World.evalF, applyStep_eq, eval_listStep_eq, hf', hf, hlst, hl, happ2]
          | timeout =>
            have happ2 : w.applyF m' (Value.Fun fid nm sp mn mx) (args.map Value.Expr) =
                w.applyF n (Value.Fun fid nm sp mn mx) (args.map Value.Expr) := by
              refine applyF_mono w n m' hevn _ _ ?_
              intro a ha
              obtain ⟨b, hb, hab⟩ := List.mem_map.mp ha
              cases hab
              exact le_trans (astSize_le_of_mem hb) hsargs
            simp only [World.evalF, applyStep_eq, eval_listStep_eq, hf', hf, hlst, hl, happ2]
          | panicked =>
            have happ2 : w.applyF m' (Value.Fun fid nm sp mn mx) (args.map Value.Expr) =
                w.applyF n (Value.Fun fid nm sp mn mx) (args.map Value.Expr) := by
              refine applyF_mono w n m' hevn _ _ ?_
              intro a ha
              obtain ⟨b, hb, hab⟩ := List.mem_map.mp ha
              cases hab
              exact le_trans (astSize_le_of_mem hb) hsargs
            simp only [World.evalF, applyStep_eq, eval_listStep_eq, hf', hf, hlst, hl, happ2]
        | Reference r2 => simp only [World.evalF, applyStep_eq, eval_listStep_eq, hf', hf]
        | Str s2 => simp only [World.evalF, applyStep_eq, eval_listStep_eq, hf', hf]
        | Bool b2 => simp only [World.evalF, applyStep_eq, eval_listStep_eq, hf', hf]
        | Expr a2 => simp only [World.evalF, applyStep_eq, eval_listStep_eq, hf', hf]
      | err e => simp only [World.evalF, applyStep_eq, eval_listStep_eq, hf', hf]
      | timeout => simp only [World.evalF, applyStep_eq, eval_listStep_eq, hf', hf]
      | panicked => simp only [World.evalF, applyStep_eq, eval_listStep_eq, hf', hf]

/-- Evaluating with the canonical fuel: any sufficient fuel agrees with
`World.eval`. -/
theorem evalF_eq_eval {w : World} {ast : Ast} {n : Nat} (h : astSize ast ≤ n) :
    w.evalF n ast = w.eval ast :=
  evalF_mono (astSize ast) w ast (le_refl _) n h

/-- `World.applyF` never exhausts fuel, given that `World.evalF` does not at
the same fuel. -/
theorem applyF_no_timeout (w : World) (n : Nat)
    (hev : ∀ ast, astSize ast ≤ n → w.evalF n ast ≠ .timeout) :
    ∀ f args, (∀ a, (Value.Expr a) ∈ args → astSize a ≤ n) →
      w.applyF n f args ≠ .timeout := by
  intro f args hargs
  cases f with
  | Fun fid nm sp mn mx =>
    cases fid with
    | If =>
      cases h0 : args.get? 0 with
      | none =>
        simp only [World.applyF, applyStep, h0]
        exact fun hh => Res.noConfusion hh
      | some v0 =>
        cases v0 with
        | Expr cond =>
          have hsz : astSize cond ≤ n := hargs cond (List.get?_mem h0)
          cases hc : w.evalF n cond with
          | ok cval =>
            cases cval with
            | Bool b =>
              cases hbr : (if b then args.get? 1 else args.get? 2) with
              | none =>
                simp only [World.applyF, applyStep, h0, hc, hbr]
                exact fun hh => Res.noConfusion hh
              | some e =>
                have hmem : e ∈ args := by
                  cases b <;> simp at hbr <;> exact List.getElem?_mem hbr
                cases e with
                | Expr ee =>
                  simp only [World.applyF, applyStep, h0, hc, hbr]
                  exact hev ee (hargs ee hmem)
                | Fun f2 n2 s2 m2 x2 =>
                  simp only [World.applyF, applyStep, h0, hc, hbr]
                  exact fun hh => Res.noConfusion hh
                | Reference r2 =>
                  simp only [World.applyF, applyStep, h0, hc, hbr]
                  exact fun hh => Res.noConfusion hh
                | Str s2 =>
                  simp only [World.applyF, applyStep, h0, hc, hbr]
                  exact fun hh => Res.noConfusion hh
                | Bool b2 =>
                  simp only [World.applyF, applyStep, h0, hc, hbr]
                  exact fun hh => Res.noConfusion hh
            | Fun f2 n2 s2 m2 x2 =>
              simp only [World.applyF, applyStep, h0, hc]
              exact fun hh => Res.noConfusion hh
            | Reference r2 =>
              simp only [World.applyF, applyStep, h0, hc]
              exact fun hh => Res.noConfusion hh
            | Str s2 =>
              simp only [World.applyF, applyStep, h0, hc]
              exact fun hh => Res.noConfusion hh
            | Expr a2 =>
              simp only [World.applyF, applyStep, h0, hc]
              exact fun hh => Res.noConfusion hh
          | err e =>
            simp only [World.applyF, applyStep, h0, hc]
            exact fun hh => Res.noConfusion hh
          | timeout => exact absurd hc (hev cond hsz)
          | panicked =>
            simp only [World.applyF, applyStep, h0, hc]
            exact fun hh => Res.noConfusion hh
        | Fun f2 n2 s2 m2 x2 =>
          simp only [World.applyF, applyStep, h0]
          exact fun hh => Res.noConfusion hh
        | Reference r2 =>
          simp only [World.applyF, applyStep, h0]
          exact fun hh => Res.noConfusion hh
        | Str s2 =>
          simp only [World.applyF, applyStep, h0]
          exact fun hh => Res.noConfusion hh
        | Bool b2 =>
          simp only [World.applyF, applyStep, h0]
          exact fun hh => Res.noConfusion hh
    | Closed =>
      cases h0 : args.get? 0 with
      | none =>
        simp only [World.applyF, applyStep, h0]
        exact fun hh => Res.noConfusion hh
      | some v0 =>
        cases v0 with
        | Reference name =>
          cases hent : w.entity name with
          | none =>
            simp only [World.applyF, applyStep, h0, hent]
            exact fun hh => Res.noConfusion hh
          | some ent =>
            cases hfind : ent.attributes.find? (fun a =>
                match a with | .Closable _ => true | _ => false) with
            | none =>
              simp only [World.applyF, applyStep, h0, hent, hfind]
              exact fun hh => Res.noConfusion hh
            | some attr =>
              cases attr <;> simp only [World.applyF, applyStep, h0, hent, hfind] <;>
                exact fun hh => Res.noConfusion hh
        | Fun f2 n2 s2 m2 x2 =>
          simp only [World.applyF, applyStep, h0]
          exact fun hh => Res.noConfusion hh
        | Str s2 =>
          simp only [World.applyF, applyStep, h0]
          exact fun hh => Res.noConfusion hh
        | Bool b2 =>
          simp only [World.applyF, applyStep, h0]
          exact fun hh => Res.noConfusion hh
        | Expr a2 =>
          simp only [World.applyF, applyStep, h0]
          exact fun hh => Res.noConfusion hh
    | Locked =>
      cases h0 : args.get? 0 with
      | none =>
        simp only [World.applyF, applyStep, h0]
        exact fun hh => Res.noConfusion hh
      | some v0 =>
        cases v0 with
        | Reference name =>
          cases hent : w.entity name with
          | none =>
            simp only [World.applyF, applyStep, h0, hent]
            exact fun hh => Res.noConfusion hh
          | some ent =>
            cases hfind : ent.attributes.find? (fun a =>
                match a with | .Lockable _ => true | _ => false) with
            | none =>
              simp only [World.applyF, applyStep, h0, hent, hfind]
              exact fun hh => Res.noConfusion hh
            | some attr =>
              cases attr <;> simp only [World.applyF, applyStep, h0, hent, hfind] <;>
                exact fun hh => Res.noConfusion hh
        | Fun f2 n2 s2 m2 x2 =>
          simp only [World.applyF, applyStep, h0]
          exact fun hh => Res.noConfusion hh
        | Str s2 =>
          simp only [World.applyF, applyStep, h0]
          exact fun hh => Res.noConfusion hh
        | Bool b2 =>
          simp only [World.applyF, applyStep, h0]
          exact fun hh => Res.noConfusion hh
        | Expr a2 =>
          simp only [World.applyF, applyStep, h0]
          exact fun hh => Res.noConfusion hh
  | Reference r2 =>
    simp only [World.applyF, applyStep]
    exact fun hh => Res.noConfusion hh
  | Str s2 =>
    simp only [World.applyF, applyStep]
    exact fun hh => Res.noConfusion hh
  | Bool b2 =>
    simp only [World.applyF, applyStep]
    exact fun hh => Res.noConfusion hh
  | Expr a2 =>
    simp only [World.applyF, applyStep]
    exact fun hh => Res.noConfusion hh

/-- `World.eval_listF` never exhausts fuel on a list of sufficiently small
expressions. -/
theorem eval_listF_no_timeout (w : World) (n : Nat)
    (hev : ∀ ast, astSize ast ≤ n → w.evalF n ast ≠ .timeout) :
    ∀ l, (∀ a ∈ l, astSize a ≤ n) → w.eval_listF n l ≠ .timeout := by
  intro l
  induction l with
  | nil =>
    intro _
    simp only [eval_listF_nil, eval_listF_cons]
    exact fun hh => Res.noConfusion hh
  | cons a rest ihr =>
    intro hsz
    cases ha : w.evalF n a with
    | ok ar =>
      cases hrest : w.eval_listF n rest with
      | ok res =>
        simp only [eval_listF_nil, eval_listF_cons, ha, hrest]
        exact fun hh => Res.noConfusion hh
      | err e =>
        simp only [eval_listF_nil, eval_listF_cons, ha, hrest]
        exact fun hh => Res.noConfusion hh
      | timeout =>
        exact absurd hrest (ihr (fun x hx => hsz x (List.mem_cons_of_mem a hx)))
      | panicked =>
        simp only [eval_listF_nil, eval_listF_cons, ha, hrest]
        exact fun hh => Res.noConfusion hh
    | err e =>
      simp only [eval_listF_nil, eval_listF_cons, ha]
      exact fun hh => Res.noConfusion hh
    | timeout => exact absurd ha (hev a (hsz a (List.mem_cons_self a rest)))
    | panicked =>
      simp only [eval_listF_nil, eval_listF_cons, ha]
      exact fun hh => Res.noConfusion hh

/-- The evaluator never exhausts fuel when given at least `astSize ast`
fuel: evaluation always terminates. -/
theorem evalF_no_timeout :
    ∀ (n : Nat) (w : World) (ast : Ast), astSize ast ≤ n →
      w.evalF n ast ≠ .timeout := by
  intro n
  induction n with
  | zero =>
    intro w ast hsz
    have := astSize_pos ast
    omega
  | succ n ih =>
    intro w ast hsz
    cases ast with
    | Empty =>
      simp only [World.evalF, applyStep_eq, eval_listStep_eq]
      exact fun hh => Res.noConfusion hh
    | Chr c =>
      simp only [World.evalF, applyStep_eq, eval_listStep_eq]
      exact fun hh => Res.noConfusion hh
    | Str s =>
      simp only [World.evalF, applyStep_eq, eval_listStep_eq]
      exact fun hh => Res.noConfusion hh
    | Id s =>
      simp only [World.evalF, applyStep_eq, eval_listStep_eq]
      split_ifs <;>
        first
        | exact fun hh => Res.noConfusion hh
        | (cases hg : w.get_by_name (w.from_script_name s) <;> simp [hg])
    | Seq l r =>
      have hsl : astSize l ≤ n := by
        have := astSize_pos r; simp only [astSize] at hsz; omega
      have hsr : astSize r ≤ n := by
        have := astSize_pos l; simp only [astSize] at hsz; omega
      cases hl : w.evalF n l with
      | ok lhs =>
        cases hr : w.evalF n r with
        | ok rhs =>
          cases lhs <;> cases rhs <;> simp only [World.evalF, applyStep_eq, eval_listStep_eq, hl, hr] <;>
            exact fun hh => Res.noConfusion hh
        | err e =>
          simp only [World.evalF, applyStep_eq, eval_listStep_eq, hl, hr]
          exact fun hh => Res.noConfusion hh
        | timeout => exact absurd hr (ih w r hsr)
        | panicked =>
          simp only [World.evalF, applyStep_eq, eval_listStep_eq, hl, hr]
          exact fun hh => Res.noConfusion hh
      | err e =>
        simp only [World.evalF, applyStep_eq, eval_listStep_eq, hl]
        exact fun hh => Res.noConfusion hh
      | timeout => exact absurd hl (ih w l hsl)
      | panicked =>
        simp only [World.evalF, applyStep_eq, eval_listStep_eq, hl]
        exact fun hh => Res.noConfusion hh
    | Call f args =>
      have hsf : astSize f ≤ n := by simp only [astSize] at hsz; omega
      have hsargs : astListSize args ≤ n := by
        have := astSize_pos f; simp only [astSize] at hsz; omega
      cases hf : w.evalF n f with
      | ok fv =>
        cases fv with
        | Fun fid nm sp mn mx =>
          simp only [World.evalF, applyStep_eq, eval_listStep_eq, hf]
          split_ifs
          · exact fun hh => Res.noConfusion hh
          · exact fun hh => Res.noConfusion hh
          · refine applyF_no_timeout w n (fun a hsa => ih w a hsa) _ _ ?_
            intro a ha
            obtain ⟨b, hb, hab⟩ := List.mem_map.mp ha
            cases hab
            exact le_trans (astSize_le_of_mem hb) hsargs
          · cases hl : w.eval_listF n args with
            | ok vals =>
              refine applyF_no_timeout w n (fun a hsa => ih w a hsa) _ _ ?_
              intro a hav
              have := eval_listF_ok_noExpr w n
                (fun ast v hv => evalF_ok_noExpr n w ast v hv)
                args vals hl (Value.Expr a) hav
              simp [valueIsExpr] at this
            | err e => exact fun hh => Res.noConfusion hh
            | timeout =>
              exact absurd hl (eval_listF_no_timeout w n (fun a hsa => ih w a hsa)
                args (fun a ha => le_trans (astSize_le_of_mem ha) hsargs))
            | panicked => exact fun hh => Res.noConfusion hh
        | Reference r2 =>
          simp only [World.evalF, applyStep_eq, eval_listStep_eq, hf]
          exact fun hh => Res.noConfusion hh
        | Str s2 =>
          simp only [World.evalF, applyStep_eq, eval_listStep_eq, hf]
          exact fun hh => Res.noConfusion hh
        | Bool b2 =>
          simp only [World.evalF, applyStep_eq, eval_listStep_eq, hf]
          exact fun hh => Res.noConfusion hh
        | Expr a2 =>
          simp only [World.evalF, applyStep_eq, eval_listStep_eq, hf]
          exact fun hh => Res.noConfusion hh
      | err e =>
        simp only [World.evalF, applyStep_eq, eval_listStep_eq, hf]
        exact fun hh => Res.noConfusion hh
      | timeout => exact absurd hf (ih w f hsf)
      | panicked =>
        simp only [World.evalF, applyStep_eq, eval_listStep_eq, hf]
        exact fun hh => Res.noConfusion hh

/-- `World.eval` always terminates: the canonical fuel is sufficient. -/
theorem eval_ne_timeout (w : World) (ast : Ast) : w.eval ast ≠ .timeout :=
  evalF_no_timeout (astSize ast) w ast (le_refl _)

/-! ## Name lookup characterization

`World::get_by_name` scans the whole entity list and overwrites its result
on every match, so it returns the id of the *last* entity (in collection
order) whose name path matches. -/

theorem getLast?_cons_of_some {α : Type} {a x : α} {l : List α}
    (h : l.getLast? = some x) : (a :: l).getLast? = some x := by
  cases l with
  | nil => simp at h
  | cons b l' => exact h

theorem foldl_lookup_eq (nm : Name) :
    ∀ (l : List Entity) (init : Option InternalName),
      l.foldl (fun res e => if e.name = nm then some e.id else res) init =
      match (l.filter fun e => decide (e.name = nm)).getLast? with
      | some e => some e.id
      | none => init := by
  intro l
  induction l with
  | nil => intro init; rfl
  | cons e rest ihr =>
    intro init
    rw [List.foldl_cons, ihr]
    by_cases hp : e.name = nm
    · have hfc : (e :: rest).filter (fun e => decide (e.name = nm)) =
          e :: rest.filter (fun e => decide (e.name = nm)) := by
        simp [List.filter_cons, hp]
      rw [hfc]
      cases hfr : (rest.filter fun e => decide (e.name = nm)).getLast? with
      | some x => rw [getLast?_cons_of_some hfr]
      | none =>
        have : rest.filter (fun e => decide (e.name = nm)) = [] :=
          List.getLast?_eq_none_iff.mp hfr
        rw [this]
        simp [hp]
    · have hfc : (e :: rest).filter (fun e => decide (e.name = nm)) =
          rest.filter (fun e => decide (e.name = nm)) := by
        simp [List.filter_cons, hp]
      rw [hfc]
      simp [hp]

theorem get_by_name_eq (w : World) (nm : Name) :
    w.get_by_name nm =
      match (w.entities.filter fun e => decide (e.name = nm)).getLast? with
      | some e => some e.id
      | none => none :=
  foldl_lookup_eq nm w.entities none

theorem get_by_name_eq_none_iff (w : World) (nm : Name) :
    w.get_by_name nm = none ↔ ∀ e ∈ w.entities, e.name ≠ nm := by
  rw [get_by_name_eq]
  cases hfr : (w.entities.filter fun e => decide (e.name = nm)).getLast? with
  | some x =>
    simp only
    constructor
    · intro h; exact absurd h (by simp)
    · intro h
      have hx := List.mem_of_mem_getLast? hfr
      have := List.mem_filter.mp hx
      exact absurd (of_decide_eq_true this.2) (h x this.1)
  | none =>
    simp only
    have hnil : w.entities.filter (fun e => decide (e.name = nm)) = [] :=
      List.getLast?_eq_none_iff.mp hfr
    constructor
    · intro _ e he hn
      have := List.filter_eq_nil_iff.mp hnil e he
      exact this (decide_eq_true hn)
    · intro _; trivial

theorem get_by_name_some (w : World) (nm : Name) (i : InternalName)
    (h : w.get_by_name nm = some i) :
    ∃ e ∈ w.entities, e.id = i ∧ e.name = nm := by
  rw [get_by_name_eq] at h
  cases hfr : (w.entities.filter fun e => decide (e.name = nm)).getLast? with
  | none => rw [hfr] at h; exact absurd h (by simp)
  | some e =>
    rw [hfr] at h
    have hx := List.mem_of_mem_getLast? hfr
    have hm := List.mem_filter.mp hx
    cases h
    exact ⟨e, hm.1, rfl, of_decide_eq_true hm.2⟩

/-! ## Attribute payloads (the semantics of `closed` and `locked`) -/

/-- The boolean payload of the first `Closable` attribute in the entity's
attribute list, defaulting to `false` (lib.rs, `Function::Closed` arm). -/
def closedPayload (ent : Entity) : Bool :=
  match ent.attributes.find? (fun a =>
      match a with | .Closable _ => true | _ => false) with
  | some (.Closable closed) => closed
  | _ => false

/-- The boolean payload of the first `Lockable` attribute in the entity's
attribute list, defaulting to `false` (lib.rs, `Function::Locked` arm). -/
def lockedPayload (ent : Entity) : Bool :=
  match ent.attributes.find? (fun a =>
      match a with | .Lockable _ => true | _ => false) with
  | some (.Lockable locked) => locked
  | _ => false

/-! ## Literal runs and sigil-free templates -/

/-- The characters the scanner has not yet delivered, starting with the
current one. -/
def Scanner.rest (s : Scanner) : List Char :=
  match s.current with
  | none => []
  | some c => c :: s.chars.drop s.pos

theorem list_drop_cons {l : List Char} {n : Nat} {c : Char}
    (hg : l.get? n = some c) : l.drop n = c :: l.drop (n + 1) := by
  have hlt : n < l.length := by
    by_contra hc
    rw [List.get?_eq_none.mpr (by omega)] at hg
    exact Option.noConfusion hg
  rw [List.drop_eq_getElem_cons hlt]
  have hx : l[n] = c := by
    rw [List.get?_eq_getElem?] at hg
    exact (List.getElem?_eq_some.mp hg).choose_spec.symm ▸ rfl
  rw [hx]

theorem Scanner.rest_new (txt : String) : (Scanner.new txt).rest = txt.data := by
  cases htd : txt.data with
  | nil => simp [Scanner.new, Scanner.rest, htd]
  | cons c cs => simp [Scanner.new, Scanner.rest, htd]

theorem Scanner.rest_cons {s : Scanner} {c : Char} (h : s.current = some c) :
    s.rest = c :: s.next.rest := by
  unfold Scanner.rest Scanner.next
  by_cases hlt : s.pos < s.chars.length
  · rw [if_pos hlt]
    cases hg : s.chars.get? s.pos with
    | none =>
      have := List.get?_eq_none.mp hg
      omega
    | some c2 =>
      simp only [h, hg]
      rw [list_drop_cons hg]
  · rw [if_neg hlt]
    simp only [h]
    rw [List.drop_eq_nil_of_le (by omega)]

theorem Scanner.rest_eq_nil {s : Scanner} (h : s.rest = []) : s.current = none := by
  unfold Scanner.rest at h
  cases hc : s.current with
  | none => rfl
  | some c =>
    rw [hc] at h
    exact absurd h (by simp)

/-- The literal-run loop of `parse` consumes every remaining character when
none of them is the sigil `#`, appending them to the accumulator and
leaving the scanner at end of input. -/
theorem lit_runF_all :
    ∀ (t : List Char) (fuel : Nat) (acc : String) (s : Scanner),
      s.rest = t → (∀ ch ∈ t, ¬ch = '#') → t.length < fuel →
      ∃ s', lit_runF fuel acc s = some (⟨acc.data ++ t⟩, s') ∧ s'.current = none := by
  intro t
  induction t with
  | nil =>
    intro fuel acc s hrest _ hlen
    obtain ⟨n, rfl⟩ : ∃ n, fuel = n + 1 := ⟨fuel - 1, by omega⟩
    have hc := Scanner.rest_eq_nil hrest
    refine ⟨s, ?_, hc⟩
    rw [lit_runF_eq_none hc]
    simp
  | cons c t2 iht =>
    intro fuel acc s hrest hns hlen
    obtain ⟨n, rfl⟩ : ∃ n, fuel = n + 1 := ⟨fuel - 1, by omega⟩
    cases hc : s.current with
    | none =>
      unfold Scanner.rest at hrest
      rw [hc] at hrest
      exact absurd hrest (by simp)
    | some c0 =>
      have hr2 := Scanner.rest_cons hc
      rw [hrest] at hr2
      injection hr2 with hce hte
      subst hce
      have hnc : ¬c = '#' := hns c (List.mem_cons_self c t2)
      rw [lit_runF_eq_cont hc hnc]
      obtain ⟨s', hs', hcn⟩ := iht n (acc.push c) s.next hte.symm
        (fun ch hch => hns ch (List.mem_cons_of_mem c hch))
        (by simp only [List.length_cons] at hlen; omega)
      refine ⟨s', ?_, hcn⟩
      rw [hs']
      simp [String.push]

/-- Parsing a sigil-free non-empty string yields `Seq Empty (Str txt)`. -/
theorem parse_nosigil_cons (c : Char) (cs : List Char)
    (h : ∀ ch ∈ c :: cs, ¬ch = '#') :
    parse ⟨c :: cs⟩ = .ok (.Seq .Empty (.Str ⟨c :: cs⟩)) := by
  have hc0 : (Scanner.new ⟨c :: cs⟩).current = some c := by
    simp [Scanner.new]
  have hnc : ¬c = '#' := h c (List.mem_cons_self c cs)
  have hrn : (Scanner.new ⟨c :: cs⟩).rest = c :: cs := Scanner.rest_new ⟨c :: cs⟩
  have hrnext : (Scanner.new ⟨c :: cs⟩).next.rest = cs := by
    have := Scanner.rest_cons hc0
    rw [hrn] at this
    injection this with _ h2
    exact h2.symm
  have hlen : (⟨c :: cs⟩ : String).length = cs.length + 1 := by
    simp [String.length]
  obtain ⟨s', hs', hcn⟩ := lit_runF_all cs (2 * (⟨c :: cs⟩ : String).length + 2)
    (String.singleton c) (Scanner.new ⟨c :: cs⟩).next hrnext
    (fun ch hch => h ch (List.mem_cons_of_mem c hch)) (by omega)
  have hacc : (⟨(String.singleton c).data ++ cs⟩ : String) = ⟨c :: cs⟩ := by
    simp [String.singleton]
  rw [parse]
  rw [show 2 * (⟨c :: cs⟩ : String).length + 3 =
      (2 * (⟨c :: cs⟩ : String).length + 2) + 1 from rfl]
  rw [parse_loopF_eq_lit hc0 hnc hs']
  rw [show 2 * (⟨c :: cs⟩ : String).length + 2 =
      (2 * (⟨c :: cs⟩ : String).length + 1) + 1 from rfl]
  rw [parse_loopF_eq_none hcn]
  rw [hacc]

/-! ## Shape of parse results -/

/-- `parse` accumulates into `Ast.Empty` or a `Ast.Seq` node. -/
def emptyOrSeq (a : Ast) : Prop := a = .Empty ∨ ∃ l r, a = .Seq l r

theorem parse_loopF_shape :
    ∀ (n : Nat) (ret : Ast) (s : Scanner) (ast : Ast),
      emptyOrSeq ret → parse_loopF n ret s = .ok ast → emptyOrSeq ast := by
  intro n
  induction n with
  | zero =>
    intro ret s ast _ h
    exact absurd h (by simp [parse_loopF])
  | succ n ih =>
    intro ret s ast hret h
    cases hc : s.current with
    | none =>
      rw [parse_loopF_eq_none hc] at h
      cases h
      exact hret
    | some c =>
      by_cases hcp : c = '#'
      · subst hcp
        cases hres : parse_exprF n s.next with
        | ok p =>
          obtain ⟨a, s1⟩ := p
          rw [parse_loopF_eq_exprok hc hres] at h
          exact ih _ s1 ast (Or.inr ⟨ret, a, rfl⟩) h
        | err e =>
          rw [parse_loopF_eq_exprerr hc hres] at h
          exact absurd h (by simp)
        | timeout =>
          rw [parse_loopF_eq_exprtimeout hc hres] at h
          exact absurd h (by simp)
        | panicked =>
          rw [parse_loopF_eq_exprpanicked hc hres] at h
          exact absurd h (by simp)
      · cases hlit : lit_runF n (String.singleton c) s.next with
        | none =>
          rw [parse_loopF_eq_littimeout hc hcp hlit] at h
          exact absurd h (by simp)
        | some p =>
          obtain ⟨acc, s1⟩ := p
          rw [parse_loopF_eq_lit hc hcp hlit] at h
          exact ih _ s1 ast (Or.inr ⟨ret, .Str acc, rfl⟩) h

theorem parse_shape {txt : String} {ast : Ast} (h : parse txt = .ok ast) :
    emptyOrSeq ast :=
  parse_loopF_shape _ _ _ _ (Or.inl rfl) h

/-- A successful evaluation of a `Seq` node always yields a string value. -/
theorem evalF_seq_ok_str {w : World} {n : Nat} {l r : Ast} {v : Value}
    (h : w.evalF n (.Seq l r) = .ok v) : ∃ s, v = .Str s := by
  cases n with
  | zero =>
    simp only [World.evalF, applyStep_eq, eval_listStep_eq] at h
    exact absurd h (by simp)
  | succ n =>
    simp only [World.evalF, applyStep_eq, eval_listStep_eq] at h
    cases hl : w.evalF n l with
    | ok lhs =>
      cases hr : w.evalF n r with
      | ok rhs =>
        simp only [hl, hr] at h
        cases lhs <;> cases rhs <;> (try exact Res.noConfusion h)
        cases h
        exact ⟨_, rfl⟩
      | err e => simp only [hl, hr] at h; exact absurd h (by simp)
      | timeout => simp only [hl, hr] at h; exact absurd h (by simp)
      | panicked => simp only [hl, hr] at h; exact absurd h (by simp)
    | err e => simp only [hl] at h; exact absurd h (by simp)
    | timeout => simp only [hl] at h; exact absurd h (by simp)
    | panicked => simp only [hl] at h; exact absurd h (by simp)

/-- Through the parse pipeline, a successful top-level evaluation always
yields a string value. -/
theorem eval_ok_str_of_shape {w : World} {ast : Ast} {v : Value}
    (hsh : emptyOrSeq ast) (h : w.eval ast = .ok v) : ∃ s, v = .Str s := by
  rcases hsh with rfl | ⟨l, r, rfl⟩
  · have hE : w.eval .Empty = .ok (.Str "") := by
      simp [World.eval, astSize, World.evalF, applyStep_eq, eval_listStep_eq]
    rw [hE] at h
    cases h
    exact ⟨"", rfl⟩
  · rw [World.eval] at h
    exact evalF_seq_ok_str h

/-! ## No `Chr` nodes in parse output -/

mutual

/-- Whether an AST contains a `Chr` node. -/
def hasChr : Ast → Bool
  | .Empty => false
  | .Seq l r => hasChr l || hasChr r
  | .Chr _ => true
  | .Str _ => false
  | .Id _ => false
  | .Call f args => hasChr f || hasChrList args

/-- Whether a list of ASTs contains a `Chr` node. -/
def hasChrList : List Ast → Bool
  | [] => false
  | a :: rest => hasChr a || hasChrList rest

end

theorem hasChrList_append (l1 l2 : List Ast) :
    hasChrList (l1 ++ l2) = (hasChrList l1 || hasChrList l2) := by
  induction l1 with
  | nil => simp [hasChrList]
  | cons a rest ihr => simp [hasChrList, ihr, Bool.or_assoc]

/-- The induction bundle: no parser function ever produces a `Chr` node. -/
def ParserNoChr (n : Nat) : Prop :=
  (∀ ret s a s', ident_loopF n ret s = .ok (a, s') → hasChr a = false) ∧
  (∀ s a s', parse_identF n s = .ok (a, s') → hasChr a = false) ∧
  (∀ q res s a s', parse_stringF n q res s = .ok (a, s') → hasChr a = false) ∧
  (∀ s a s', parse_exprF n s = .ok (a, s') → hasChr a = false) ∧
  (∀ s a s', parse_callF n s = .ok (a, s') → hasChr a = false) ∧
  (∀ id args s a s', hasChr id = false → hasChrList args = false →
    call_argsF n id args s = .ok (a, s') → hasChr a = false) ∧
  (∀ ret s a, hasChr ret = false → parse_loopF n ret s = .ok a → hasChr a = false)

theorem parserNoChr : ∀ n, ParserNoChr n := by
  intro n
  induction n with
  | zero =>
    refine ⟨?_, ?_, ?_, ?_, ?_, ?_, ?_⟩ <;> intros <;>
      simp_all [ident_loopF, parse_identF, parse_stringF, parse_exprF,
        parse_callF, call_argsF, parse_loopF]
  | succ n ih =>
    obtain ⟨ihil, ihid, ihstr, ihex, ihcall, ihargs, ihloop⟩ := ih
    have hidl : ∀ ret s a s', ident_loopF (n + 1) ret s = .ok (a, s') →
        hasChr a = false := by
      intro ret s a s' h
      cases hc : s.current with
      | none =>
        rw [ident_loopF_eq_none hc] at h
        cases h
        rfl
      | some c =>
        rw [ident_loopF_eq_some hc] at h
        by_cases hcont : is_ident_cont c
        · rw [if_pos hcont] at h
          exact ihil _ _ _ _ h
        · rw [if_neg hcont] at h
          cases h
          rfl
    have hident : ∀ s a s', parse_identF (n + 1) s = .ok (a, s') →
        hasChr a = false := by
      intro s a s' h
      cases hc : s.current with
      | none =>
        rw [parse_identF_eq_none hc] at h
        exact absurd h (by simp)
      | some c =>
        rw [parse_identF_eq_some hc] at h
        by_cases hst : is_ident_start c
        · rw [if_pos hst] at h
          exact ihil _ _ _ _ h
        · rw [if_neg hst] at h
          exact absurd h (by simp)
    have hstring : ∀ q res s a s', parse_stringF (n + 1) q res s = .ok (a, s') →
        hasChr a = false := by
      intro q res s a s' h
      cases hc : s.current with
      | none =>
        rw [parse_stringF_eq_none hc] at h
        exact absurd h (by simp)
      | some c =>
        rw [parse_stringF_eq_some hc] at h
        by_cases hq : c = q
        · rw [if_pos hq] at h
          cases h
          rfl
        · rw [if_neg hq] at h
          exact ihstr _ _ _ _ _ h
    have hexpr : ∀ s a s', parse_exprF (n + 1) s = .ok (a, s') →
        hasChr a = false := by
      intro s a s' h
      cases hws : skip_wsF n s with
      | none =>
        rw [parse_exprF_eq_timeout hws] at h
        exact absurd h (by simp)
      | some s1 =>
        cases hc : s1.current with
        | none =>
          rw [parse_exprF_eq_eos hws hc] at h
          exact absurd h (by simp)
        | some c =>
          rw [parse_exprF_eq_some hws hc] at h
          by_cases h1 : c = '('
          · rw [if_pos h1] at h
            exact ihcall _ _ _ h
          · rw [if_neg h1] at h
            by_cases h2 : c = '\'' ∨ c = '"'
            · rw [if_pos h2] at h
              exact ihstr _ _ _ _ _ h
            · rw [if_neg h2] at h
              by_cases h3 : is_ident_start c
              · rw [if_pos h3] at h
                exact ihid _ _ _ h
              · rw [if_neg h3] at h
                exact absurd h (by simp)
    have hcallp : ∀ s a s', parse_callF (n + 1) s = .ok (a, s') →
        hasChr a = false := by
      intro s a s' h
      cases hws : skip_wsF n s with
      | none =>
        rw [parse_callF_eq_timeout hws] at h
        exact absurd h (by simp)
      | some s1 =>
        cases hres : parse_identF n s1 with
        | ok p =>
          obtain ⟨id, s2⟩ := p
          have hidc : hasChr id = false := ihid _ _ _ hres
          cases hws2 : skip_wsF n s2 with
          | none =>
            rw [parse_callF_eq_ws2timeout hws hres hws2] at h
            exact absurd h (by simp)
          | some s3 =>
            rw [parse_callF_eq_args hws hres hws2] at h
            exact ihargs _ _ _ _ _ hidc (by simp [hasChrList]) h
        | err e =>
          rw [parse_callF_eq_identerr hws hres] at h
          exact absurd h (by simp)
        | timeout =>
          rw [parse_callF_eq_identtimeout hws hres] at h
          exact absurd h (by simp)
        | panicked =>
          rw [parse_callF_eq_identpanicked hws hres] at h
          exact absurd h (by simp)
    have hargsp : ∀ id args s a s', hasChr id = false → hasChrList args = false →
        call_argsF (n + 1) id args s = .ok (a, s') → hasChr a = false := by
      intro id args s a s' hid hargs h
      cases hc : s.current with
      | none =>
        rw [call_argsF_eq_none hc] at h
        exact absurd h (by simp)
      | some c =>
        by_cases hcp : c = ')'
        · subst hcp
          rw [call_argsF_eq_close hc] at h
          cases h
          simp [hasChr, hid, hargs]
        · cases hres : parse_exprF n s with
          | ok p =>
            obtain ⟨a2, s1⟩ := p
            have ha2 : hasChr a2 = false := ihex _ _ _ hres
            rw [call_argsF_eq_exprok hc hcp hres] at h
            refine ihargs _ _ _ _ _ hid ?_ h
            rw [hasChrList_append]
            simp [hasChrList, hargs, ha2]
          | err e =>
            rw [call_argsF_eq_exprerr hc hcp hres] at h
            exact absurd h (by simp)
          | timeout =>
            rw [call_argsF_eq_exprtimeout hc hcp hres] at h
            exact absurd h (by simp)
          | panicked =>
            rw [call_argsF_eq_exprpanicked hc hcp hres] at h
            exact absurd h (by simp)
    have hloopp : ∀ ret s a, hasChr ret = false → parse_loopF (n + 1) ret s = .ok a →
        hasChr a = false := by
      intro ret s a hret h
      cases hc : s.current with
      | none =>
        rw [parse_loopF_eq_none hc] at h
        cases h
        exact hret
      | some c =>
        by_cases hcp : c = '#'
        · subst hcp
          cases hres : parse_exprF n s.next with
          | ok p =>
            obtain ⟨a2, s1⟩ := p
            have ha2 : hasChr a2 = false := ihex _ _ _ hres
            rw [parse_loopF_eq_exprok hc hres] at h
            refine ihloop _ _ _ ?_ h
            simp [hasChr, hret, ha2]
          | err e =>
            rw [parse_loopF_eq_exprerr hc hres] at h
            exact absurd h (by simp)
          | timeout =>
            rw [parse_loopF_eq_exprtimeout hc hres] at h
            exact absurd h (by simp)
          | panicked =>
            rw [parse_loopF_eq_exprpanicked hc hres] at h
            exact absurd h (by simp)
        · cases hlit : lit_runF n (String.singleton c) s.next with
          | none =>
            rw [parse_loopF_eq_littimeout hc hcp hlit] at h
            exact absurd h (by simp)
          | some p =>
            obtain ⟨acc, s1⟩ := p
            rw [parse_loopF_eq_lit hc hcp hlit] at h
            refine ihloop _ _ _ ?_ h
            simp [hasChr, hret]
    exact ⟨hidl, hident, hstring, hexpr, hcallp, hargsp, hloopp⟩

/-- `parse` output never contains a `Chr` node. -/
theorem parse_noChr {txt : String} {ast : Ast} (h : parse txt = .ok ast) :
    hasChr ast = false :=
  (parserNoChr (2 * txt.length + 3)).2.2.2.2.2.2 .Empty (Scanner.new txt) ast rfl h

/-! ## Absence of panics (under a consistent entity map)

`World::apply` uses `unwrap` in three places: the three argument slots of
`if`, and the entity lookup inside `closed`/`locked`.  The arity check and
the special-form wrapping make the former unreachable, and entity
references produced by identifier resolution are always keys of a
consistent `entity_map`, making the latter unreachable too. -/

/-- The `entity_map` maps each entity's id to that entity's position in the
`entities` vector. -/
def WorldMapOk (w : World) : Prop :=
  ∀ (i : Nat) (h : i < w.entities.length),
    List.lookup (w.entities.get ⟨i, h⟩).id w.entity_map = some i

/-- Invariant satisfied by every value the evaluator produces: entity
references resolve, and function values are rows of the builtin table. -/
def ValueOk (w : World) : Value → Prop
  | .Reference r => ∃ ent, w.entity r = some ent
  | .Fun fid nm sp mn mx =>
      (fid = .If ∧ nm = "if" ∧ sp = true ∧ mn = 3 ∧ mx = 3) ∨
      (fid = .Closed ∧ nm = "closed" ∧ sp = false ∧ mn = 1 ∧ mx = 1) ∨
      (fid = .Locked ∧ nm = "locked" ∧ sp = false ∧ mn = 1 ∧ mx = 1)
  | .Str _ => True
  | .Bool _ => True
  | .Expr _ => True

theorem entity_of_get_by_name {w : World} (hmap : WorldMapOk w) {nm : Name}
    {i : InternalName} (h : w.get_by_name nm = some i) :
    ∃ ent, w.entity i = some ent := by
  obtain ⟨e, he, heid, _⟩ := get_by_name_some w nm i h
  obtain ⟨k, hk⟩ := List.mem_iff_get.mp he
  have hl := hmap k.1 k.2
  simp only [Fin.eta] at hl
  rw [hk] at hl
  refine ⟨e, ?_⟩
  unfold World.entity
  rw [heid] at hl
  rw [hl]
  show w.entities.get? k.1 = some e
  rw [List.get?_eq_get k.2]
  simp only [Fin.eta]
  rw [hk]

/-- Helper for `World.applyF`: applying a builtin-table function value to
well-formed arguments of checked arity never panics, and its result
satisfies the value invariant. -/
theorem applyF_no_panic (w : World) (n : Nat)
    (hev : ∀ ast, w.evalF n ast ≠ .panicked ∧
      ∀ v, w.evalF n ast = .ok v → ValueOk w v) :
    ∀ fid nm sp mn mx args,
      ValueOk w (.Fun fid nm sp mn mx) →
      (∀ v ∈ args, ValueOk w v) →
      mn ≤ args.length → args.length ≤ mx →
      w.applyF n (.Fun fid nm sp mn mx) args ≠ .panicked ∧
      ∀ v, w.applyF n (.Fun fid nm sp mn mx) args = .ok v → ValueOk w v := by
  intro fid nm sp mn mx args hcan hargs hmin hmax
  cases fid with
  | If =>
    rcases hcan with ⟨_, hnm, hsp, hmn, hmx⟩ | ⟨hbad, _⟩ | ⟨hbad, _⟩
    · subst hmn hmx
      have hlen : args.length = 3 := by omega
      obtain ⟨v0, h0⟩ : ∃ v, args.get? 0 = some v :=
        ⟨_, List.get?_eq_get (by omega)⟩
      cases v0 with
      | Expr cond =>
        cases hc : w.evalF n cond with
        | ok cval =>
          have hcok := (hev cond).2 cval hc
          cases cval with
          | Bool b =>
            obtain ⟨e, hbr⟩ : ∃ e, (if b then args.get? 1 else args.get? 2) = some e := by
              cases b
              · exact ⟨_, List.get?_eq_get (by omega)⟩
              · exact ⟨_, List.get?_eq_get (by omega)⟩
            cases e with
            | Expr ee =>
              have heq : w.applyF n (.Fun .If nm sp 3 3) args = w.evalF n ee := by
                simp only [World.applyF, applyStep, h0, hc, hbr]
              rw [heq]
              exact ⟨(hev ee).1, fun v hv => (hev ee).2 v hv⟩
            | Fun f2 n2 s2 m2 x2 =>
              have heq : w.applyF n (.Fun .If nm sp 3 3) args =
                  .err "internal error, if expression already evaluated" := by
                simp only [World.applyF, applyStep, h0, hc, hbr]
              rw [heq]
              exact ⟨fun hh => Res.noConfusion hh, fun v hv => absurd hv (by simp)⟩
            | Reference r2 =>
              have heq : w.applyF n (.Fun .If nm sp 3 3) args =
                  .err "internal error, if expression already evaluated" := by
                simp only [World.applyF, applyStep, h0, hc, hbr]
              rw [heq]
              exact ⟨fun hh => Res.noConfusion hh, fun v hv => absurd hv (by simp)⟩
            | Str s2 =>
              have heq : w.applyF n (.Fun .If nm sp 3 3) args =
                  .err "internal error, if expression already evaluated" := by
                simp only [World.applyF, applyStep, h0, hc, hbr]
              rw [heq]
              exact ⟨fun hh => Res.noConfusion hh, fun v hv => absurd hv (by simp)⟩
            | Bool b2 =>
              have heq : w.applyF n (.Fun .If nm sp 3 3) args =
                  .err "internal error, if expression already evaluated" := by
                simp only [World.applyF, applyStep, h0, hc, hbr]
              rw [heq]
              exact ⟨fun hh => Res.noConfusion hh, fun v hv => absurd hv (by simp)⟩
          | Fun f2 n2 s2 m2 x2 =>
            have heq : w.applyF n (.Fun .If nm sp 3 3) args =
                .err "if expects boolean expression as first argument" := by
              simp only [World.applyF, applyStep, h0, hc]
            rw [heq]
            exact ⟨fun hh => Res.noConfusion hh, fun v hv => absurd hv (by simp)⟩
          | Reference r2 =>
            have heq : w.applyF n (.Fun .If nm sp 3 3) args =
                .err "if expects boolean expression as first argument" := by
              simp only [World.applyF, applyStep, h0, hc]
            rw [heq]
            exact ⟨fun hh => Res.noConfusion hh, fun v hv => absurd hv (by simp)⟩
          | Str s2 =>
            have heq : w.applyF n (.Fun .If nm sp 3 3) args =
                .err "if expects boolean expression as first argument" := by
              simp only [World.applyF, applyStep, h0, hc]
            rw [heq]
            exact ⟨fun hh => Res.noConfusion hh, fun v hv => absurd hv (by simp)⟩
          | Expr a2 =>
            have heq : w.applyF n (.Fun .If nm sp 3 3) args =
                .err "if expects boolean expression as first argument" := by
              simp only [World.applyF, applyStep, h0, hc]
            rw [heq]
            exact ⟨fun hh => Res.noConfusion hh, fun v hv => absurd hv (by simp)⟩
        | err e =>
          have heq : w.applyF n (.Fun .If nm sp 3 3) args = .err e := by
            simp only [World.applyF, applyStep, h0, hc]
          rw [heq]
          exact ⟨fun hh => Res.noConfusion hh, fun v hv => absurd hv (by simp)⟩
        | timeout =>
          have heq : w.applyF n (.Fun .If nm sp 3 3) args = .timeout := by
            simp only [World.applyF, applyStep, h0, hc]
          rw [heq]
          exact ⟨fun hh => Res.noConfusion hh, fun v hv => absurd hv (by simp)⟩
        | panicked => exact absurd hc (hev cond).1
      | Fun f2 n2 s2 m2 x2 =>
        have heq : w.applyF n (.Fun .If nm sp 3 3) args =
            .err "internal error, if condition already evaluated" := by
          simp only [World.applyF, applyStep, h0]
        rw [heq]
        exact ⟨fun hh => Res.noConfusion hh, fun v hv => absurd hv (by simp)⟩
      | Reference r2 =>
        have heq : w.applyF n (.Fun .If nm sp 3 3) args =
            .err "internal error, if condition already evaluated" := by
          simp only [World.applyF, applyStep, h0]
        rw [heq]
        exact ⟨fun hh => Res.noConfusion hh, fun v hv => absurd hv (by simp)⟩
      | Str s2 =>
        have heq : w.applyF n (.Fun .If nm sp 3 3) args =
            .err "internal error, if condition already evaluated" := by
          simp only [World.applyF, applyStep, h0]
        rw [heq]
        exact ⟨fun hh => Res.noConfusion hh, fun v hv => absurd hv (by simp)⟩
      | Bool b2 =>
        have heq : w.applyF n (.Fun .If nm sp 3 3) args =
            .err "internal error, if condition already evaluated" := by
          simp only [World.applyF, applyStep, h0]
        rw [heq]
        exact ⟨fun hh => Res.noConfusion hh, fun v hv => absurd hv (by simp)⟩
    · exact absurd hbad (by simp)
    · exact absurd hbad (by simp)
  | Closed =>
    rcases hcan with ⟨hbad, _⟩ | ⟨_, hnm, hsp, hmn, hmx⟩ | ⟨hbad, _⟩
    · exact absurd hbad (by simp)
    · subst hmn hmx
      obtain ⟨v0, h0⟩ : ∃ v, args.get? 0 = some v :=
        ⟨_, List.get?_eq_get (by omega)⟩
      have hv0 : ValueOk w v0 := hargs v0 (List.get?_mem h0)
      cases v0 with
      | Reference r =>
        obtain ⟨ent, hent⟩ := hv0
        cases hfind : ent.attributes.find? (fun a =>
            match a with | .Closable _ => true | _ => false) with
        | none =>
          have heq : w.applyF n (.Fun .Closed nm sp 1 1) args = .ok (.Bool false) := by
            simp only [World.applyF, applyStep, h0, hent, hfind]
          rw [heq]
          refine ⟨fun hh => Res.noConfusion hh, ?_⟩
          intro v hv
          cases hv
          trivial
        | some attr =>
          cases attr with
          | Closable b =>
            have heq : w.applyF n (.Fun .Closed nm sp 1 1) args = .ok (.Bool b) := by
              simp only [World.applyF, applyStep, h0, hent, hfind]
            rw [heq]
            refine ⟨fun hh => Res.noConfusion hh, ?_⟩
            intro v hv
            cases hv
            trivial
          | Lockable b =>
            have heq : w.applyF n (.Fun .Closed nm sp 1 1) args = .ok (.Bool false) := by
              simp only [World.applyF, applyStep, h0, hent, hfind]
            rw [heq]
            refine ⟨fun hh => Res.noConfusion hh, ?_⟩
            intro v hv
            cases hv
            trivial
          | Doorlike c =>
            have heq : w.applyF n (.Fun .Closed nm sp 1 1) args = .ok (.Bool false) := by
              simp only [World.applyF, applyStep, h0, hent, hfind]
            rw [heq]
            refine ⟨fun hh => Res.noConfusion hh, ?_⟩
            intro v hv
            cases hv
            trivial
          | Roomlike c =>
            have heq : w.applyF n (.Fun .Closed nm sp 1 1) args = .ok (.Bool false) := by
              simp only [World.applyF, applyStep, h0, hent, hfind]
            rw [heq]
            refine ⟨fun hh => Res.noConfusion hh, ?_⟩
            intro v hv
            cases hv
            trivial
          | Characterlike c =>
            have heq : w.applyF n (.Fun .Closed nm sp 1 1) args = .ok (.Bool false) := by
              simp only [World.applyF, applyStep, h0, hent, hfind]
            rw [heq]
            refine ⟨fun hh => Res.noConfusion hh, ?_⟩
            intro v hv
            cases hv
            trivial
      | Fun f2 n2 s2 m2 x2 =>
        have heq : w.applyF n (.Fun .Closed nm sp 1 1) args =
            .err "function closed requires a name of an entity" := by
          simp only [World.applyF, applyStep, h0]
        rw [heq]
        exact ⟨fun hh => Res.noConfusion hh, fun v hv => absurd hv (by simp)⟩
      | Str s2 =>
        have heq : w.applyF n (.Fun .Closed nm sp 1 1) args =
            .err "function closed requires a name of an entity" := by
          simp only [World.applyF, applyStep, h0]
        rw [heq]
        exact ⟨fun hh => Res.noConfusion hh, fun v hv => absurd hv (by simp)⟩
      | Bool b2 =>
        have heq : w.applyF n (.Fun .Closed nm sp 1 1) args =
            .err "function closed requires a name of an entity" := by
          simp only [World.applyF, applyStep, h0]
        rw [heq]
        exact ⟨fun hh => Res.noConfusion hh, fun v hv => absurd hv (by simp)⟩
      | Expr a2 =>
        have heq : w.applyF n (.Fun .Closed nm sp 1 1) args =
            .err "function closed requires a name of an entity" := by
          simp only [World.applyF, applyStep, h0]
        rw [heq]
        exact ⟨fun hh => Res.noConfusion hh, fun v hv => absurd hv (by simp)⟩
    · exact absurd hbad (by simp)
  | Locked =>
    rcases hcan with ⟨hbad, _⟩ | ⟨hbad, _⟩ | ⟨_, hnm, hsp, hmn, hmx⟩
    · exact absurd hbad (by simp)
    · exact absurd hbad (by simp)
    · subst hmn hmx
      obtain ⟨v0, h0⟩ : ∃ v, args.get? 0 = some v :=
        ⟨_, List.get?_eq_get (by omega)⟩
      have hv0 : ValueOk w v0 := hargs v0 (List.get?_mem h0)
      cases v0 with
      | Reference r =>
        obtain ⟨ent, hent⟩ := hv0
        cases hfind : ent.attributes.find? (fun a =>
            match a with | .Lockable _ => true | _ => false) with
        | none =>
          have heq : w.applyF n (.Fun .Locked nm sp 1 1) args = .ok (.Bool false) := by
            simp only [World.applyF, applyStep, h0, hent, hfind]
          rw [heq]
          refine ⟨fun hh => Res.noConfusion hh, ?_⟩
          intro v hv
          cases hv
          trivial
        | some attr =>
          cases attr with
          | Lockable b =>
            have heq : w.applyF n (.Fun .Locked nm sp 1 1) args = .ok (.Bool b) := by
              simp only [World.applyF, applyStep, h0, hent, hfind]
            rw [heq]
            refine ⟨fun hh => Res.noConfusion hh, ?_⟩
            intro v hv
            cases hv
            trivial
          | Closable b =>
            have heq : w.applyF n (.Fun .Locked nm sp 1 1) args = .ok (.Bool false) := by
              simp only [World.applyF, applyStep, h0, hent, hfind]
            rw [heq]
            refine ⟨fun hh => Res.noConfusion hh, ?_⟩
            intro v hv
            cases hv
            trivial
          | Doorlike c =>
            have heq : w.applyF n (.Fun .Locked nm sp 1 1) args = .ok (.Bool false) := by
              simp only [World.applyF, applyStep, h0, hent, hfind]
            rw [heq]
            refine ⟨fun hh => Res.noConfusion hh, ?_⟩
            intro v hv
            cases hv
            trivial
          | Roomlike c =>
            have heq : w.applyF n (.Fun .Locked nm sp 1 1) args = .ok (.Bool false) := by
              simp only [World.applyF, applyStep, h0, hent, hfind]
            rw [heq]
            refine ⟨fun hh => Res.noConfusion hh, ?_⟩
            intro v hv
            cases hv
            trivial
          | Characterlike c =>
            have heq : w.applyF n (.Fun .Locked nm sp 1 1) args = .ok (.Bool false) := by
              simp only [World.applyF, applyStep, h0, hent, hfind]
            rw [heq]
            refine ⟨fun hh => Res.noConfusion hh, ?_⟩
            intro v hv
            cases hv
            trivial
      | Fun f2 n2 s2 m2 x2 =>
        have heq : w.applyF n (.Fun .Locked nm sp 1 1) args =
            .err "function locked requires a name of an entity" := by
          simp only [World.applyF, applyStep, h0]
        rw [heq]
        exact ⟨fun hh => Res.noConfusion hh, fun v hv => absurd hv (by simp)⟩
      | Str s2 =>
        have heq : w.applyF n (.Fun .Locked nm sp 1 1) args =
            .err "function locked requires a name of an entity" := by
          simp only [World.applyF, applyStep, h0]
        rw [heq]
        exact ⟨fun hh => Res.noConfusion hh, fun v hv => absurd hv (by simp)⟩
      | Bool b2 =>
        have heq : w.applyF n (.Fun .Locked nm sp 1 1) args =
            .err "function locked requires a name of an entity" := by
          simp only [World.applyF, applyStep, h0]
        rw [heq]
        exact ⟨fun hh => Res.noConfusion hh, fun v hv => absurd hv (by simp)⟩
      | Expr a2 =>
        have heq : w.applyF n (.Fun .Locked nm sp 1 1) args =
            .err "function locked requires a name of an entity" := by
          simp only [World.applyF, applyStep, h0]
        rw [heq]
        exact ⟨fun hh => Res.noConfusion hh, fun v hv => absurd hv (by simp)⟩

/-- Helper for `World.eval_listF`: eager argument evaluation never panics
and preserves length and the value invariant. -/
theorem eval_listF_no_panic (w : World) (n : Nat)
    (hev : ∀ ast, w.evalF n ast ≠ .panicked ∧
      ∀ v, w.evalF n ast = .ok v → ValueOk w v) :
    ∀ l, w.eval_listF n l ≠ .panicked ∧
      ∀ vs, w.eval_listF n l = .ok vs →
        vs.length = l.length ∧ ∀ v ∈ vs, ValueOk w v := by
  intro l
  induction l with
  | nil =>
    refine ⟨by simp [eval_listF_nil, eval_listF_cons], ?_⟩
    intro vs h
    simp only [eval_listF_nil, eval_listF_cons] at h
    cases h
    exact ⟨rfl, by intro v hv; cases hv⟩
  | cons a rest ihr =>
    cases ha : w.evalF n a with
    | ok ar =>
      cases hrest : w.eval_listF n rest with
      | ok res =>
        obtain ⟨hlen, hok⟩ := ihr.2 res hrest
        refine ⟨?_, ?_⟩
        · simp only [eval_listF_nil, eval_listF_cons, ha, hrest]
          exact fun hh => Res.noConfusion hh
        · intro vs h
          simp only [eval_listF_nil, eval_listF_cons, ha, hrest] at h
          cases h
          refine ⟨by simp [hlen], ?_⟩
          intro v hv
          rcases List.mem_cons.mp hv with hva | hvr
          · subst hva
            exact (hev a).2 v ha
          · exact hok v hvr
      | err e =>
        refine ⟨?_, ?_⟩
        · simp only [eval_listF_nil, eval_listF_cons, ha, hrest]
          exact fun hh => Res.noConfusion hh
        · intro vs h
          simp only [eval_listF_nil, eval_listF_cons, ha, hrest] at h
          exact absurd h (by simp)
      | timeout =>
        refine ⟨?_, ?_⟩
        · simp only [eval_listF_nil, eval_listF_cons, ha, hrest]
          exact fun hh => Res.noConfusion hh
        · intro vs h
          simp only [eval_listF_nil, eval_listF_cons, ha, hrest] at h
          exact absurd h (by simp)
      | panicked => exact absurd hrest ihr.1
    | err e =>
      refine ⟨?_, ?_⟩
      · simp only [eval_listF_nil, eval_listF_cons, ha]
        exact fun hh => Res.noConfusion hh
      · intro vs h
        simp only [eval_listF_nil, eval_listF_cons, ha] at h
        exact absurd h (by simp)
    | timeout =>
      refine ⟨?_, ?_⟩
      · simp only [eval_listF_nil, eval_listF_cons, ha]
        exact fun hh => Res.noConfusion hh
      · intro vs h
        simp only [eval_listF_nil, eval_listF_cons, ha] at h
        exact absurd h (by simp)
    | panicked => exact absurd ha (hev a).1

/-- The evaluator never panics on a world with a consistent entity map, and
every value it produces satisfies the value invariant. -/
theorem evalF_no_panic :
    ∀ (n : Nat) (w : World), WorldMapOk w →
      ∀ ast, w.evalF n ast ≠ .panicked ∧
        ∀ v, w.evalF n ast = .ok v → ValueOk w v := by
  intro n
  induction n with
  | zero =>
    intro w _ ast
    exact ⟨by simp [World.evalF, applyStep_eq, eval_listStep_eq], fun v hv => absurd hv (by simp [World.evalF, applyStep_eq, eval_listStep_eq])⟩
  | succ n ih =>
    intro w hmap ast
    have ihw := ih w hmap
    cases ast with
    | Empty =>
      refine ⟨by simp [World.evalF, applyStep_eq, eval_listStep_eq], ?_⟩
      intro v hv
      simp only [World.evalF, applyStep_eq, eval_listStep_eq] at hv
      cases hv
      trivial
    | Chr c =>
      refine ⟨by simp [World.evalF, applyStep_eq, eval_listStep_eq], ?_⟩
      intro v hv
      simp only [World.evalF, applyStep_eq, eval_listStep_eq] at hv
      cases hv
      trivial
    | Str s =>
      refine ⟨by simp [World.evalF, applyStep_eq, eval_listStep_eq], ?_⟩
      intro v hv
      simp only [World.evalF, applyStep_eq, eval_listStep_eq] at hv
      cases hv
      trivial
    | Id s =>
      by_cases h1 : s = "if"
      · subst h1
        have heq : w.evalF (n + 1) (.Id "if") = .ok (.Fun .If "if" true 3 3) := by
          simp [World.evalF, applyStep_eq, eval_listStep_eq]
        rw [heq]
        refine ⟨fun hh => Res.noConfusion hh, ?_⟩
        intro v hv
        cases hv
        exact Or.inl ⟨rfl, rfl, rfl, rfl, rfl⟩
      · by_cases h2 : s = "closed"
        · subst h2
          have heq : w.evalF (n + 1) (.Id "closed") =
              .ok (.Fun .Closed "closed" false 1 1) := by
            simp [World.evalF, applyStep_eq, eval_listStep_eq]
          rw [heq]
          refine ⟨fun hh => Res.noConfusion hh, ?_⟩
          intro v hv
          cases hv
          exact Or.inr (Or.inl ⟨rfl, rfl, rfl, rfl, rfl⟩)
        · by_cases h3 : s = "locked"
          · subst h3
            have heq : w.evalF (n + 1) (.Id "locked") =
                .ok (.Fun .Locked "locked" false 1 1) := by
              simp [World.evalF, applyStep_eq, eval_listStep_eq]
            rw [heq]
            refine ⟨fun hh => Res.noConfusion hh, ?_⟩
            intro v hv
            cases hv
            exact Or.inr (Or.inr ⟨rfl, rfl, rfl, rfl, rfl⟩)
          · cases hg : w.get_by_name (w.from_script_name s) with
            | none =>
              have heq : w.evalF (n + 1) (.Id s) =
                  .err ("undefined identifier: " ++ s) := by
                simp only [World.evalF, applyStep_eq, eval_listStep_eq, if_neg h1, if_neg h2, if_neg h3, hg]
              rw [heq]
              exact ⟨fun hh => Res.noConfusion hh, fun v hv => absurd hv (by simp)⟩
            | some id =>
              have heq : w.evalF (n + 1) (.Id s) = .ok (.Reference id) := by
                simp only [World.evalF, applyStep_eq, eval_listStep_eq, if_neg h1, if_neg h2, if_neg h3, hg]
              rw [heq]
              refine ⟨fun hh => Res.noConfusion hh, ?_⟩
              intro v hv
              cases hv
              exact entity_of_get_by_name hmap hg
    | Seq l r =>
      cases hl : w.evalF n l with
      | ok lhs =>
        cases hr : w.evalF n r with
        | ok rhs =>
          cases lhs <;> cases rhs <;>
            refine ⟨?_, ?_⟩ <;>
            simp only [World.evalF, applyStep_eq, eval_listStep_eq, hl, hr] <;>
            first
            | exact fun hh => Res.noConfusion hh
            | (intro v hv
               cases hv <;> trivial)
        | err e =>
          refine ⟨?_, ?_⟩ <;> simp only [World.evalF, applyStep_eq, eval_listStep_eq, hl, hr]
          · exact fun hh => Res.noConfusion hh
          · exact fun v hv => absurd hv (by simp)
        | timeout =>
          refine ⟨?_, ?_⟩ <;> simp only [World.evalF, applyStep_eq, eval_listStep_eq, hl, hr]
          · exact fun hh => Res.noConfusion hh
          · exact fun v hv => absurd hv (by simp)
        | panicked => exact absurd hr (ihw r).1
      | err e =>
        refine ⟨?_, ?_⟩ <;> simp only [World.evalF, applyStep_eq, eval_listStep_eq, hl]
        · exact fun hh => Res.noConfusion hh
        · exact fun v hv => absurd hv (by simp)
      | timeout =>
        refine ⟨?_, ?_⟩ <;> simp only [World.evalF, applyStep_eq, eval_listStep_eq, hl]
        · exact fun hh => Res.noConfusion hh
        · exact fun v hv => absurd hv (by simp)
      | panicked => exact absurd hl (ihw l).1
    | Call f args =>
      cases hf : w.evalF n f with
      | ok fv =>
        have hfok := (ihw f).2 fv hf
        cases fv with
        | Fun fid nm sp mn mx =>
          by_cases ha1 : args.length < mn
          · have heq : w.evalF (n + 1) (.Call f args) =
                .err ("function " ++ nm ++ " requires at least " ++
                  toString mn ++ " arguments, got " ++ toString args.length) := by
              simp only [World.evalF, applyStep_eq, eval_listStep_eq, hf, if_pos ha1]
            rw [heq]
            exact ⟨fun hh => Res.noConfusion hh, fun v hv => absurd hv (by simp)⟩
          · by_cases ha2 : args.length > mx
            · have heq : w.evalF (n + 1) (.Call f args) =
                  .err ("function " ++ nm ++ " requires at most " ++
                    toString mx ++ " arguments, got " ++ toString args.length) := by
                simp only [World.evalF, applyStep_eq, eval_listStep_eq, hf, if_neg ha1, if_pos ha2]
              rw [heq]
              exact ⟨fun hh => Res.noConfusion hh, fun v hv => absurd hv (by simp)⟩
            · have hsp : sp = true ∨ sp = false := by
                cases sp
                · exact Or.inr rfl
                · exact Or.inl rfl
              cases hsp with
              | inl hspt =>
                have heq : w.evalF (n + 1) (.Call f args) =
                    w.applyF n (.Fun fid nm sp mn mx) (args.map Value.Expr) := by
                  simp only [World.evalF, applyStep_eq, eval_listStep_eq, hf, if_neg ha1, if_neg ha2, hspt, if_true]
                rw [heq]
                refine applyF_no_panic w n ihw fid nm sp mn mx _ hfok ?_ ?_ ?_
                · intro v hv
                  obtain ⟨b, _, hab⟩ := List.mem_map.mp hv
                  cases hab
                  trivial
                · simp only [List.length_map]
                  omega
                · simp only [List.length_map]
                  omega
              | inr hspf =>
                subst hspf
                cases hlst : w.eval_listF n args with
                | ok vals =>
                  obtain ⟨hlen, hvok⟩ := (eval_listF_no_panic w n ihw args).2 vals hlst
                  have heq : w.evalF (n + 1) (.Call f args) =
                      w.applyF n (.Fun fid nm false mn mx) vals := by
                    simp only [World.evalF, applyStep_eq, eval_listStep_eq, hf, if_neg ha1, if_neg ha2,
                      Bool.false_eq_true, if_false, hlst]
                  rw [heq]
                  refine applyF_no_panic w n ihw fid nm false mn mx vals hfok hvok ?_ ?_
                  · omega
                  · omega
                | err e =>
                  have heq : w.evalF (n + 1) (.Call f args) = .err e := by
                    simp only [World.evalF, applyStep_eq, eval_listStep_eq, hf, if_neg ha1, if_neg ha2,
                      Bool.false_eq_true, if_false, hlst]
                  rw [heq]
                  exact ⟨fun hh => Res.noConfusion hh, fun v hv => absurd hv (by simp)⟩
                | timeout =>
                  have heq : w.evalF (n + 1) (.Call f args) = .timeout := by
                    simp only [World.evalF, applyStep_eq, eval_listStep_eq, hf, if_neg ha1, if_neg ha2,
                      Bool.false_eq_true, if_false, hlst]
                  rw [heq]
                  exact ⟨fun hh => Res.noConfusion hh, fun v hv => absurd hv (by simp)⟩
                | panicked =>
                  exact absurd hlst (eval_listF_no_panic w n ihw args).1
        | Reference r2 =>
          refine ⟨?_, ?_⟩ <;> simp only [World.evalF, applyStep_eq, eval_listStep_eq, hf]
          · exact fun hh => Res.noConfusion hh
          · exact fun v hv => absurd hv (by simp)
        | Str s2 =>
          refine ⟨?_, ?_⟩ <;> simp only [World.evalF, applyStep_eq, eval_listStep_eq, hf]
          · exact fun hh => Res.noConfusion hh
          · exact fun v hv => absurd hv (by simp)
        | Bool b2 =>
          refine ⟨?_, ?_⟩ <;> simp only [World.evalF, applyStep_eq, eval_listStep_eq, hf]
          · exact fun hh => Res.noConfusion hh
          · exact fun v hv => absurd hv (by simp)
        | Expr a2 =>
          refine ⟨?_, ?_⟩ <;> simp only [World.evalF, applyStep_eq, eval_listStep_eq, hf]
          · exact fun hh => Res.noConfusion hh
          · exact fun v hv => absurd hv (by simp)
      | err e =>
        refine ⟨?_, ?_⟩ <;> simp only [World.evalF, applyStep_eq, eval_listStep_eq, hf]
        · exact fun hh => Res.noConfusion hh
        · exact fun v hv => absurd hv (by simp)
      | timeout =>
        refine ⟨?_, ?_⟩ <;> simp only [World.evalF, applyStep_eq, eval_listStep_eq, hf]
        · exact fun hh => Res.noConfusion hh
        · exact fun v hv => absurd hv (by simp)
      | panicked => exact absurd hf (ihw f).1

/-- `World.eval` never panics on a world with a consistent entity map. -/
theorem eval_no_panic (w : World) (hmap : WorldMapOk w) (ast : Ast) :
    w.eval ast ≠ .panicked :=
  (evalF_no_panic (astSize ast) w hmap ast).1

/-! ## Claim-level building blocks -/

theorem eval_id_nonbuiltin (w : World) (s : String)
    (h1 : ¬s = "if") (h2 : ¬s = "closed") (h3 : ¬s = "locked") :
    w.eval (.Id s) =
      match w.get_by_name (w.from_script_name s) with
      | none => .err ("undefined identifier: " ++ s)
      | some name => .ok (.Reference name) := by
  simp only [World.eval, astSize, World.evalF, applyStep_eq, eval_listStep_eq,
    if_neg h1, if_neg h2, if_neg h3]

theorem eval_id_if (w : World) : w.eval (.Id "if") = .ok (.Fun .If "if" true 3 3) := rfl

theorem eval_id_closed (w : World) :
    w.eval (.Id "closed") = .ok (.Fun .Closed "closed" false 1 1) := rfl

theorem eval_id_locked (w : World) :
    w.eval (.Id "locked") = .ok (.Fun .Locked "locked" false 1 1) := rfl

theorem astSize_call_eq (f : Ast) (args : List Ast) :
    astSize (.Call f args) = astSize f + astListSize args + 1 := by
  simp [astSize]

/-- C6: when the callee of a call evaluates to a builtin function value,
an argument count below the minimum arity (or above the maximum) makes the
whole call evaluate to an arity error naming the violated bound and the
actual count.  The arguments themselves never enter the result: the error
is produced for every argument list of that length, so no argument is
evaluated first. -/
theorem arity_error_sem (w : World) (f : Ast) (args : List Ast)
    (fid : Function) (nm : String) (sp : Bool) (mn mx : Nat)
    (hf : w.eval f = .ok (.Fun fid nm sp mn mx)) :
    (args.length < mn → w.eval (.Call f args) =
      .err ("function " ++ nm ++ " requires at least " ++ toString mn ++
        " arguments, got " ++ toString args.length)) ∧
    (mn ≤ args.length → mx < args.length → w.eval (.Call f args) =
      .err ("function " ++ nm ++ " requires at most " ++ toString mx ++
        " arguments, got " ++ toString args.length)) := by
  have hf' : w.evalF (astSize f + astListSize args) f =
      .ok (.Fun fid nm sp mn mx) := by
    rw [evalF_eq_eval (Nat.le_add_right _ _)]
    exact hf
  constructor
  · intro hlt
    rw [World.eval, astSize_call_eq]
    simp only [World.evalF, applyStep_eq, eval_listStep_eq, hf', if_pos hlt]
  · intro hge hgt
    rw [World.eval, astSize_call_eq]
    simp only [World.evalF, applyStep_eq, eval_listStep_eq, hf',
      if_neg (by omega : ¬args.length < mn), if_pos hgt]

/-- C1: when the condition of an `if` call evaluates to a boolean `b`, the
call evaluates to exactly the evaluation of the selected branch; the
unchosen branch does not occur in the result for any AST whatsoever, so it
is never evaluated — in particular a template whose unselected branch
contains an undefined identifier or an out-of-arity call still renders
successfully. -/
theorem if_lazy_branch_sem (w : World) (c t e : Ast) (b : Bool)
    (hc : w.eval c = .ok (.Bool b)) :
    w.eval (.Call (.Id "if") [c, t, e]) = w.eval (if b then t else e) := by
  have hsc : astSize c ≤ astSize (.Id "if") + astListSize [c, t, e] := by
    simp only [astSize, astListSize]
    omega
  have hst : astSize t ≤ astSize (.Id "if") + astListSize [c, t, e] := by
    simp only [astSize, astListSize]
    omega
  have hse : astSize e ≤ astSize (.Id "if") + astListSize [c, t, e] := by
    simp only [astSize, astListSize]
    omega
  have hif : w.evalF (astSize (.Id "if") + astListSize [c, t, e]) (.Id "if") =
      .ok (.Fun .If "if" true 3 3) := by
    rw [evalF_eq_eval (by simp only [astSize, astListSize]; omega)]
    exact eval_id_if w
  have hc' : w.evalF (astSize (.Id "if") + astListSize [c, t, e]) c =
      .ok (.Bool b) := by
    rw [evalF_eq_eval hsc]
    exact hc
  have ht' : w.evalF (astSize (.Id "if") + astListSize [c, t, e]) t = w.eval t :=
    evalF_eq_eval hst
  have he' : w.evalF (astSize (.Id "if") + astListSize [c, t, e]) e = w.eval e :=
    evalF_eq_eval hse
  rw [World.eval, astSize_call_eq]
  simp only [World.evalF, applyStep_eq, eval_listStep_eq, hif]
  rw [if_neg (by simp), if_neg (by simp), if_pos (by trivial)]
  cases b with
  | true => simp [World.applyF, applyStep, hc', ht']
  | false => simp [World.applyF, applyStep, hc', he']

theorem eval_closed_locked_ref (w : World) (arg : Ast) (r : InternalName)
    (ent : Entity) (harg : w.eval arg = .ok (.Reference r))
    (hent : w.entity r = some ent) :
    w.eval (.Call (.Id "closed") [arg]) = .ok (.Bool (closedPayload ent)) ∧
    w.eval (.Call (.Id "locked") [arg]) = .ok (.Bool (lockedPayload ent)) := by
  have hsa : ∀ q : String, astSize arg ≤ astSize (.Id q) + astListSize [arg] := by
    intro q
    simp only [astSize, astListSize]
    omega
  have harg' : ∀ q : String,
      w.evalF (astSize (.Id q) + astListSize [arg]) arg = .ok (.Reference r) := by
    intro q
    rw [evalF_eq_eval (hsa q)]
    exact harg
  constructor
  · have hcl : w.evalF (astSize (.Id "closed") + astListSize [arg]) (.Id "closed") =
        .ok (.Fun .Closed "closed" false 1 1) := by
      rw [evalF_eq_eval (by simp only [astSize, astListSize]; omega)]
      exact eval_id_closed w
    rw [World.eval, astSize_call_eq]
    simp only [World.evalF, applyStep_eq, eval_listStep_eq, hcl]
    rw [if_neg (by simp), if_neg (by simp), if_neg (by simp)]
    simp only [eval_listF_cons, eval_listF_nil, harg' "closed"]
    cases hfind : ent.attributes.find? (fun a =>
        match a with | .Closable _ => true | _ => false) with
    | none => simp [World.applyF, applyStep, hent, hfind, closedPayload]
    | some attr =>
      cases attr <;> simp [World.applyF, applyStep, hent, hfind, closedPayload]
  · have hlk : w.evalF (astSize (.Id "locked") + astListSize [arg]) (.Id "locked") =
        .ok (.Fun .Locked "locked" false 1 1) := by
      rw [evalF_eq_eval (by simp only [astSize, astListSize]; omega)]
      exact eval_id_locked w
    rw [World.eval, astSize_call_eq]
    simp only [World.evalF, applyStep_eq, eval_listStep_eq, hlk]
    rw [if_neg (by simp), if_neg (by simp), if_neg (by simp)]
    simp only [eval_listF_cons, eval_listF_nil, harg' "locked"]
    cases hfind : ent.attributes.find? (fun a =>
        match a with | .Lockable _ => true | _ => false) with
    | none => simp [World.applyF, applyStep, hent, hfind, lockedPayload]
    | some attr =>
      cases attr <;> simp [World.applyF, applyStep, hent, hfind, lockedPayload]

theorem eval_closed_locked_nonref (w : World) (arg : Ast) (v : Value)
    (harg : w.eval arg = .ok v) (hnr : ∀ r, ¬v = .Reference r) :
    w.eval (.Call (.Id "closed") [arg]) =
      .err "function closed requires a name of an entity" ∧
    w.eval (.Call (.Id "locked") [arg]) =
      .err "function locked requires a name of an entity" := by
  have hsa : ∀ q : String, astSize arg ≤ astSize (.Id q) + astListSize [arg] := by
    intro q
    simp only [astSize, astListSize]
    omega
  have harg' : ∀ q : String,
      w.evalF (astSize (.Id q) + astListSize [arg]) arg = .ok v := by
    intro q
    rw [evalF_eq_eval (hsa q)]
    exact harg
  constructor
  · have hcl : w.evalF (astSize (.Id "closed") + astListSize [arg]) (.Id "closed") =
        .ok (.Fun .Closed "closed" false 1 1) := by
      rw [evalF_eq_eval (by simp only [astSize, astListSize]; omega)]
      exact eval_id_closed w
    rw [World.eval, astSize_call_eq]
    simp only [World.evalF, applyStep_eq, eval_listStep_eq, hcl]
    rw [if_neg (by simp), if_neg (by simp), if_neg (by simp)]
    simp only [eval_listF_cons, eval_listF_nil, harg' "closed"]
    cases v with
    | Reference r => exact absurd rfl (hnr r)
    | Fun f2 n2 s2 m2 x2 => simp [World.applyF, applyStep]
    | Str s2 => simp [World.applyF, applyStep]
    | Bool b2 => simp [World.applyF, applyStep]
    | Expr a2 => simp [World.applyF, applyStep]
  · have hlk : w.evalF (astSize (.Id "locked") + astListSize [arg]) (.Id "locked") =
        .ok (.Fun .Locked "locked" false 1 1) := by
      rw [evalF_eq_eval (by simp only [astSize, astListSize]; omega)]
      exact eval_id_locked w
    rw [World.eval, astSize_call_eq]
    simp only [World.evalF, applyStep_eq, eval_listStep_eq, hlk]
    rw [if_neg (by simp), if_neg (by simp), if_neg (by simp)]
    simp only [eval_listF_cons, eval_listF_nil, harg' "locked"]
    cases v with
    | Reference r => exact absurd rfl (hnr r)
    | Fun f2 n2 s2 m2 x2 => simp [World.applyF, applyStep]
    | Str s2 => simp [World.applyF, applyStep]
    | Bool b2 => simp [World.applyF, applyStep]
    | Expr a2 => simp [World.applyF, applyStep]

/-! ## Claim theorems and witnesses -/

/-- Witness for C1 at `make_example_world`: the door is closed, so the
`if` call returns the then-branch `"yes"`, even though the unselected
else-branch `(no.such.entity)` would fail if it were evaluated (last
conjunct); the full template of the claim renders to `"yes"`. -/
theorem if_lazy_branch_sem_witness :
    exampleWorld.eval (.Call (.Id "closed") [.Id "rusty.metal.door"]) =
      .ok (.Bool true) ∧
    exampleWorld.eval (.Call (.Id "if")
      [.Call (.Id "closed") [.Id "rusty.metal.door"], .Str "yes",
       .Call (.Id "no.such.entity") []]) = .ok (.Str "yes") ∧
    exampleWorld.eval_str "#(if (closed rusty.metal.door) \"yes\" (no.such.entity))" =
      .ok "yes" ∧
    exampleWorld.eval (.Call (.Id "no.such.entity") []) =
      .err "undefined identifier: no.such.entity" := by
  have h1 : exampleWorld.eval (.Call (.Id "closed") [.Id "rusty.metal.door"]) =
      .ok (.Bool true) := rfl
  refine ⟨h1, ?_, rfl, rfl⟩
  rw [if_lazy_branch_sem exampleWorld _ _ _ true h1]
  rfl

/-- C2 counterexample: in a world with two distinct entities sharing the
name path `["a"]` (ids `10` then `20` in collection order), identifier
evaluation returns a reference to `20`, the *last* match — not `10`, the
id of the first matching entity in collection order, as the claim states. -/
theorem identifier_first_match_counterexample :
    dupWorld.eval (.Id "a") = .ok (.Reference 20) ∧
    dupWorld.get_by_name ["a"] = some 20 ∧
    (dupWorld.entities.filter fun e => decide (e.name = ["a"])).head?.map Entity.id =
      some 10 ∧
    ¬(20 : InternalName) = 10 :=
  ⟨rfl, rfl, rfl, by decide⟩

/-- C2 (amended): evaluating a non-reserved identifier splits the token on
`.` and scans the world's entities for an exact name-path match; when
several entities match, the *last* matching entity in collection order is
the one returned as an entity reference (the scan overwrites its result on
every match); no match yields the undefined-identifier error. -/
theorem identifier_resolves_to_last_match (w : World) (s : String)
    (h1 : ¬s = "if") (h2 : ¬s = "closed") (h3 : ¬s = "locked") :
    w.eval (.Id s) =
      match (w.entities.filter fun e => decide (e.name = w.from_script_name s)).getLast? with
      | some e => .ok (.Reference e.id)
      | none => .err ("undefined identifier: " ++ s) := by
  rw [eval_id_nonbuiltin w s h1 h2 h3, get_by_name_eq]
  cases hfr : (w.entities.filter fun e => decide (e.name = w.from_script_name s)).getLast? with
  | none => simp [hfr]
  | some e => simp [hfr]

/-- Witness for C2 (amended) in the duplicate-name world: the token `a`
resolves to the id `20` of the last matching entity. -/
theorem identifier_resolves_to_last_match_witness :
    dupWorld.eval (.Id "a") = .ok (.Reference 20) := by
  rw [identifier_resolves_to_last_match dupWorld "a" (by decide) (by decide) (by decide)]
  rfl

/-- C3: applying `closed` (resp. `locked`) to an argument that evaluates to
an entity reference yields the boolean payload of the first `Closable`
(resp. `Lockable`) attribute in that entity's attribute list (`false` when
absent, as `closedPayload`/`lockedPayload` encode via `List.find?`); an
argument evaluating to any other value kind makes the application fail. -/
theorem closed_locked_attribute_sem (w : World) (arg : Ast) :
    (∀ r ent, w.eval arg = .ok (.Reference r) → w.entity r = some ent →
      w.eval (.Call (.Id "closed") [arg]) = .ok (.Bool (closedPayload ent)) ∧
      w.eval (.Call (.Id "locked") [arg]) = .ok (.Bool (lockedPayload ent))) ∧
    (∀ v, w.eval arg = .ok v → (∀ r, ¬v = .Reference r) →
      w.eval (.Call (.Id "closed") [arg]) =
        .err "function closed requires a name of an entity" ∧
      w.eval (.Call (.Id "locked") [arg]) =
        .err "function locked requires a name of an entity") :=
  ⟨fun r ent harg hent => eval_closed_locked_ref w arg r ent harg hent,
   fun v harg hnr => eval_closed_locked_nonref w arg v harg hnr⟩

/-- Witness for C3 at `make_example_world`: the door carries
`Closable(true)` and `Lockable(false)`; a string argument is rejected. -/
theorem closed_locked_attribute_sem_witness :
    exampleWorld.eval (.Call (.Id "closed") [.Id "rusty.metal.door"]) =
      .ok (.Bool true) ∧
    exampleWorld.eval (.Call (.Id "locked") [.Id "rusty.metal.door"]) =
      .ok (.Bool false) ∧
    exampleWorld.eval (.Call (.Id "closed") [.Str "x"]) =
      .err "function closed requires a name of an entity" := by
  have href := (closed_locked_attribute_sem exampleWorld (.Id "rusty.metal.door")).1
    0 exampleDoor rfl rfl
  have hnon := (closed_locked_attribute_sem exampleWorld (.Str "x")).2
    (.Str "x") rfl (fun r h => Value.noConfusion h)
  refine ⟨?_, ?_, hnon.1⟩
  · rw [href.1]
    rfl
  · rw [href.2]
    rfl

/-- C4: a template containing no `#` sigil renders to itself against any
world. -/
theorem render_identity_on_sigil_free (w : World) (txt : String)
    (h : ∀ ch ∈ txt.data, ¬ch = '#') : w.eval_str txt = .ok txt := by
  obtain ⟨data⟩ := txt
  cases data with
  | nil => rfl
  | cons c cs =>
    have hp := parse_nosigil_cons c cs h
    have heval : w.eval (.Seq .Empty (.Str ⟨c :: cs⟩)) = .ok (.Str ⟨c :: cs⟩) := by
      simp [World.eval, astSize, World.evalF, applyStep_eq, eval_listStep_eq]
    simp only [World.eval_str, hp, heval]

/-- Witness for C4: the claim's concrete scenario. -/
theorem render_identity_on_sigil_free_witness :
    exampleWorld.eval_str "plain text" = .ok "plain text" :=
  render_identity_on_sigil_free exampleWorld "plain text" (by decide)

/-- C5 counterexample: rendering `#(locked rusty.metal.door)` against the
example world yields the *concatenation* error, not an error mentioning
`invalid value` — the boolean produced by `locked` is caught by the `Seq`
concatenation check before the top-level string check can see it. -/
theorem render_locked_concat_error_counterexample :
    exampleWorld.eval_str "#(locked rusty.metal.door)" =
      .err "invalid operand for concatenation" ∧
    ¬("invalid operand for concatenation" =
      "invalid value: " ++ debugValue (.Bool false)) :=
  ⟨rfl, by decide⟩

/-- C5 (amended): rendering returns `Ok` exactly when the parsed template
evaluates to a string value; moreover through the parse pipeline the
top-level result of a successful evaluation is *always* a string (the
parser wraps every template in a `Seq` chain, whose evaluation is a string
or an error), so the `invalid value` report of `eval_str` is unreachable —
a non-string value inside a template is instead rejected by the enclosing
concatenation, as the counterexample shows. -/
theorem render_string_result_contract (w : World) (txt : String) (ast : Ast)
    (hp : parse txt = .ok ast) :
    (∀ s, w.eval_str txt = .ok s ↔ w.eval ast = .ok (.Str s)) ∧
    (∀ v, w.eval ast = .ok v → ∃ s2, v = .Str s2) := by
  refine ⟨?_, fun v hv => eval_ok_str_of_shape (parse_shape hp) hv⟩
  intro s
  cases hev : w.eval ast with
  | ok v =>
    obtain ⟨s2, rfl⟩ := eval_ok_str_of_shape (parse_shape hp) hev
    simp only [World.eval_str, hp, hev]
    simp
  | err e =>
    simp only [World.eval_str, hp, hev]
    simp
  | timeout =>
    simp only [World.eval_str, hp, hev]
    simp
  | panicked =>
    simp only [World.eval_str, hp, hev]
    simp

/-- Witness for C5 (amended) on the claim's sibling scenario: a template
that does reduce to a string renders successfully. -/
theorem render_string_result_contract_witness :
    exampleWorld.eval_str "#(if (closed rusty.metal.door) \"closed\" \"open\")" =
      .ok "closed" := by
  have h := (render_string_result_contract exampleWorld
      "#(if (closed rusty.metal.door) \"closed\" \"open\")"
      (.Seq .Empty (.Call (.Id "if")
        [.Call (.Id "closed") [.Id "rusty.metal.door"], .Str "closed", .Str "open"]))
      rfl).1 "closed"
  exact h.mpr rfl

/-- Witness for C6: the claim's concrete scenario — `if` applied to two
arguments reports the violated minimum of 3 and the actual count 2. -/
theorem arity_error_sem_witness :
    exampleWorld.eval (.Call (.Id "if") [.Str "a", .Str "b"]) =
      .err "function if requires at least 3 arguments, got 2" := by
  have h := (arity_error_sem exampleWorld (.Id "if") [.Str "a", .Str "b"]
      .If "if" true 3 3 (eval_id_if exampleWorld)).1 (by decide)
  rw [h]
  rfl

/-- C7: for a non-reserved identifier token, evaluation fails exactly when
no entity's name path equals the token split on `.`, the failure message is
`undefined identifier: <token>`, and that is the only error the identifier
evaluation can produce. -/
theorem undefined_identifier_sem (w : World) (s : String)
    (h1 : ¬s = "if") (h2 : ¬s = "closed") (h3 : ¬s = "locked") :
    (w.eval (.Id s) = .err ("undefined identifier: " ++ s) ↔
      ∀ e ∈ w.entities, ¬e.name = w.from_script_name s) ∧
    (∀ msg, w.eval (.Id s) = .err msg → msg = "undefined identifier: " ++ s) := by
  cases hg : w.get_by_name (w.from_script_name s) with
  | none =>
    have hiff := (get_by_name_eq_none_iff w (w.from_script_name s)).mp hg
    rw [eval_id_nonbuiltin w s h1 h2 h3, hg]
    refine ⟨⟨fun _ => fun e he => hiff e he, fun _ => rfl⟩, ?_⟩
    intro msg hmsg
    injection hmsg with hm
    exact hm.symm
  | some id =>
    rw [eval_id_nonbuiltin w s h1 h2 h3, hg]
    refine ⟨⟨fun hx => absurd hx (by simp), fun hall => ?_⟩,
      fun msg hmsg => absurd hmsg (by simp)⟩
    have hnone := (get_by_name_eq_none_iff w (w.from_script_name s)).mpr
      (fun e he => hall e he)
    rw [hg] at hnone
    exact absurd hnone (by simp)

/-- Witness for C7: the claim's concrete scenario against the example
world. -/
theorem undefined_identifier_sem_witness :
    exampleWorld.eval (.Id "no.such.entity") =
      .err "undefined identifier: no.such.entity" ∧
    exampleWorld.eval_str "#(closed no.such.entity)" =
      .err "undefined identifier: no.such.entity" := by
  have h := undefined_identifier_sem exampleWorld "no.such.entity"
    (by decide) (by decide) (by decide)
  exact ⟨h.1.mpr (by decide), rfl⟩

/-- C8: `parse` terminates on every finite input string, and `World.eval`
terminates on every finite AST and world — neither ever exhausts the fuel
supplied by the embedding. -/
theorem parse_eval_terminate :
    (∀ txt : String, parse txt ≠ .timeout) ∧
    (∀ (w : World) (ast : Ast), w.eval ast ≠ .timeout) :=
  ⟨parse_ne_timeout, eval_ne_timeout⟩

/-- C9: on a world whose `entity_map` maps each entity's id to its position
in the entity vector, evaluating any AST produced by `parse` never panics:
the arity check feeds `if` exactly three deferred arguments, and every
entity reference produced by identifier resolution is a key of the map. -/
theorem eval_no_panic_of_parse (w : World) (hmap : WorldMapOk w)
    (txt : String) (ast : Ast) (_hp : parse txt = .ok ast) :
    w.eval ast ≠ .panicked :=
  eval_no_panic w hmap ast

/-- Witness for C9: the example world's map is consistent and the parsed
`#(closed rusty.metal.door)` template evaluates without panicking. -/
theorem eval_no_panic_of_parse_witness :
    WorldMapOk exampleWorld ∧
    exampleWorld.eval (.Seq .Empty (.Call (.Id "closed") [.Id "rusty.metal.door"])) ≠
      .panicked := by
  have hmap : WorldMapOk exampleWorld := by
    intro i h
    have h3 : i < 3 := h
    interval_cases i <;> rfl
  exact ⟨hmap,
    eval_no_panic_of_parse exampleWorld hmap "#(closed rusty.metal.door)" _ rfl⟩

/-- C10: a successful parse never produces an AST containing a `Chr` node:
literal runs, single characters included, are represented as `Str` nodes. -/
theorem parse_output_no_chr (txt : String) (ast : Ast)
    (hp : parse txt = .ok ast) : hasChr ast = false :=
  parse_noChr hp

/-- Witness for C10: a one-character literal parses to a `Str` node and the
result is `Chr`-free. -/
theorem parse_output_no_chr_witness :
    parse "x" = .ok (.Seq .Empty (.Str "x")) ∧
    hasChr (.Seq .Empty (.Str "x")) = false :=
  ⟨rfl, parse_output_no_chr "x" _ rfl⟩

end Mudstuck
